import Mathlib

/-!
Verification development for the mex-common schema reconciliation engine.

The embedded code comes from:
* src/tests/models/test_model_schemas.py : the field normalizer
  (prepare_field, deduplicate_dicts, dissolve_single_item_lists,
  sub_only_text) and the schema loader / comparator checks;
* src/mex/common/settings.py : BaseSettings.get and its context;
* src/mex/common/wikidata/models/organization.py :
  DataValue.transform_strings_to_dict.

JSON-like values (Python dicts, lists, strings, ints, bools, None) are
modelled by the inductive type Json below.  Python dicts are modelled as
insertion-ordered association lists with unique keys, exactly matching
CPython dict semantics for the operations the code uses (get/pop item
assignment keep the key position; new keys are appended at the end).
Numbers are modelled as integers; no fragment handled by the code under
test carries non-integer numerics.
-/

namespace Mex

inductive Json where
  | null
  | bool (b : Bool)
  | num (n : Int)
  | str (s : String)
  | arr (items : List Json)
  | obj (entries : List (String × Json))

abbrev Entries := List (String × Json)

/-! Structural (Lean) equality on Json, decidable.  Two values are equal
here iff their `json.dumps` serialisations coincide: serialisation keeps
dict insertion order, so order-sensitive structural equality is exactly
dumps-string equality.  This is the equality used by `deduplicate_dicts`
(which dedupes by dumps string).  Python `==` (order-insensitive on
dicts) is modelled separately below as `peq`. -/

mutual
def jeq : Json → Json → Bool
  | Json.null, Json.null => true
  | Json.bool a, Json.bool b => a == b
  | Json.num a, Json.num b => a == b
  | Json.str a, Json.str b => a == b
  | Json.arr as, Json.arr bs => jeqL as bs
  | Json.obj aes, Json.obj bes => jeqE aes bes
  | _, _ => false
def jeqL : List Json → List Json → Bool
  | [], [] => true
  | a :: as, b :: bs => jeq a b && jeqL as bs
  | _, _ => false
def jeqE : Entries → Entries → Bool
  | [], [] => true
  | a :: as, b :: bs => (a.1 == b.1 && jeq a.2 b.2) && jeqE as bs
  | _, _ => false
end

mutual
theorem jeq_iff : ∀ a b, jeq a b = true ↔ a = b
  | Json.null, b => by cases b <;> simp [jeq]
  | Json.bool a, b => by cases b <;> simp [jeq]
  | Json.num a, b => by cases b <;> simp [jeq]
  | Json.str a, b => by cases b <;> simp [jeq]
  | Json.arr as, b => by
      cases b <;> simp [jeq]
      exact jeqL_iff as _
  | Json.obj aes, b => by
      cases b <;> simp [jeq]
      exact jeqE_iff aes _
theorem jeqL_iff : ∀ as bs, jeqL as bs = true ↔ as = bs
  | [], bs => by cases bs <;> simp [jeqL]
  | a :: as, bs => by
      cases bs with
      | nil => simp [jeqL]
      | cons b bs => simp [jeqL, jeq_iff a b, jeqL_iff as bs]
theorem jeqE_iff : ∀ as bs, jeqE as bs = true ↔ as = bs
  | [], bs => by cases bs <;> simp [jeqE]
  | a :: as, bs => by
      cases bs with
      | nil => simp [jeqE]
      | cons b bs =>
          cases a; cases b
          simp [jeqE, jeq_iff, jeqE_iff as bs, Prod.ext_iff]
end

instance : DecidableEq Json := fun a b => decidable_of_iff (jeq a b = true) (jeq_iff a b)

/-! A computable size measure, used only to supply recursion fuel. -/

mutual
def jsize : Json → Nat
  | Json.arr l => 1 + jsizeL l
  | Json.obj es => 1 + jsizeE es
  | _ => 1
def jsizeL : List Json → Nat
  | [] => 0
  | x :: xs => 1 + jsize x + jsizeL xs
def jsizeE : Entries → Nat
  | [] => 0
  | e :: es => 1 + jsize e.2 + jsizeE es
end

theorem jsize_pos : ∀ j, 1 ≤ jsize j := by
  intro j; cases j <;> simp [jsize]

theorem jsizeL_mem {x : Json} : ∀ {l : List Json}, x ∈ l → jsize x < jsizeL l := by
  intro l
  induction l with
  | nil => intro h; cases h
  | cons a t ih =>
    intro h
    rcases List.mem_cons.mp h with rfl | h2
    · simp [jsizeL]; omega
    · have := ih h2; simp [jsizeL]; omega

theorem jsizeE_mem {e : String × Json} : ∀ {l : Entries}, e ∈ l → jsize e.2 < jsizeE l := by
  intro l
  induction l with
  | nil => intro h; cases h
  | cons a t ih =>
    intro h
    rcases List.mem_cons.mp h with rfl | h2
    · simp [jsizeE]; omega
    · have := ih h2; simp [jsizeE]; omega

/-! ## Python dict operations

Modelled on insertion-ordered association lists (CPython semantics):
`plookup` is `dict.get`, `perase` is `dict.pop` (ignoring the returned
value), `pinsert` is item assignment `d[k] = v` (replaces the value in
place when the key is present, appends otherwise), and `pupdate` is
`dict.update`. -/

def plookup : Entries → String → Option Json
  | [], _ => none
  | e :: es, k => if e.1 = k then some e.2 else plookup es k

def perase : Entries → String → Entries
  | [], _ => []
  | e :: es, k => if e.1 = k then perase es k else e :: perase es k

def pinsert : Entries → String → Json → Entries
  | [], k, v => [(k, v)]
  | e :: es, k, v => if e.1 = k then (k, v) :: es else e :: pinsert es k v

def pupdate (es : Entries) (new : Entries) : Entries :=
  new.foldl (fun acc e => pinsert acc e.1 e.2) es

theorem plookup_mem {k : String} {v : Json} :
    ∀ {es : Entries}, plookup es k = some v → (k, v) ∈ es := by
  intro es
  induction es with
  | nil => intro h; simp [plookup] at h
  | cons e t ih =>
    intro h
    cases e with
    | mk a b =>
      by_cases hk : a = k
      · simp [plookup, hk] at h
        subst hk; subst h
        exact List.mem_cons_self _ _
      · simp [plookup, hk] at h
        exact List.mem_cons_of_mem _ (ih h)

theorem plookup_size {es : Entries} {k : String} {v : Json}
    (h : plookup es k = some v) : jsize v < jsizeE es :=
  jsizeE_mem (plookup_mem h)

theorem plookup_perase_self (es : Entries) (k : String) :
    plookup (perase es k) k = none := by
  induction es with
  | nil => simp [perase, plookup]
  | cons e t ih =>
    by_cases hk : e.1 = k
    · simpa [perase, hk] using ih
    · simpa [perase, plookup, hk] using ih

theorem plookup_perase_other {k k' : String} (h : k ≠ k') :
    ∀ (es : Entries), plookup (perase es k) k' = plookup es k' := by
  intro es
  induction es with
  | nil => simp [perase, plookup]
  | cons e t ih =>
    by_cases hk : e.1 = k
    · have h2 : e.1 ≠ k' := by rw [hk]; exact h
      simpa [perase, plookup, hk, h2, h] using ih
    · by_cases hk' : e.1 = k'
      · simp [perase, plookup, hk, hk', h, Ne.symm h]
      · simpa [perase, plookup, hk, hk'] using ih

theorem plookup_pinsert_self (es : Entries) (k : String) (v : Json) :
    plookup (pinsert es k v) k = some v := by
  induction es with
  | nil => simp [pinsert, plookup]
  | cons e t ih =>
    by_cases hk : e.1 = k
    · simp [pinsert, plookup, hk]
    · simpa [pinsert, plookup, hk] using ih

theorem plookup_pinsert_other {k k' : String} (v : Json) (h : k ≠ k') :
    ∀ (es : Entries), plookup (pinsert es k v) k' = plookup es k' := by
  intro es
  induction es with
  | nil =>
    have : ¬ (k = k') := h
    simp [pinsert, plookup, this]
  | cons e t ih =>
    by_cases hk : e.1 = k
    · have h2 : ¬ (k = k') := h
      have h3 : e.1 ≠ k' := by rw [hk]; exact h
      simp [pinsert, plookup, hk, h2, h3]
    · by_cases hk' : e.1 = k'
      · simp [pinsert, plookup, hk, hk', h, Ne.symm h]
      · simpa [pinsert, plookup, hk, hk'] using ih

theorem perase_of_not_mem : ∀ {es : Entries} {k : String},
    plookup es k = none → perase es k = es := by
  intro es k
  induction es with
  | nil => intro _; simp [perase]
  | cons e t ih =>
    intro h
    by_cases hk : e.1 = k
    · simp [plookup, hk] at h
    · simp [plookup, hk] at h
      simp [perase, hk, ih h]

theorem pinsert_self : ∀ {es : Entries} {k : String} {v : Json},
    plookup es k = some v → pinsert es k v = es := by
  intro es k v
  induction es with
  | nil => intro h; simp [plookup] at h
  | cons e t ih =>
    intro h
    cases e with
    | mk a b =>
      by_cases hk : a = k
      · simp [plookup, hk] at h
        subst hk; subst h
        simp [pinsert]
      · simp [plookup, hk] at h
        simp [pinsert, hk, ih h]

/-! ## Character and string helpers

All text manipulation is done on `List Char` (with `String.mk`/`.data`
wrappers) so that every operation is a plain structural recursion. -/

def isUpperCh (c : Char) : Bool := 65 ≤ c.toNat && c.toNat ≤ 90

def isLowerCh (c : Char) : Bool := 97 ≤ c.toNat && c.toNat ≤ 122

/-- Character class of the `sub_only_text` token pattern: ASCII letters,
underscore and hyphen (the regex `[a-zA-Z_-]+` from the source). -/
def isTokenChar (c : Char) : Bool := isUpperCh c || isLowerCh c || c == '_' || c == '-'

def toLowerChar (c : Char) : Char :=
  if isUpperCh c then Char.ofNat (c.toNat + 32) else c

theorem toLowerChar_not_upper (c : Char) : isUpperCh (toLowerChar c) = false := by
  unfold toLowerChar
  by_cases h : isUpperCh c
  · simp only [h, if_true]
    simp only [isUpperCh, Bool.and_eq_true, decide_eq_true_eq] at h
    obtain ⟨h1, h2⟩ := h
    interval_cases h3 : c.toNat <;> decide
  · simp only [h, if_false]
    simpa using h

def noUpper (l : List Char) : Bool := l.all (fun c => !(isUpperCh c))

theorem toLowerChar_eq_self {c : Char} (h : isUpperCh c = false) : toLowerChar c = c := by
  simp [toLowerChar, h]

/-- Modelled from the spec: `mex.common.transform.dromedary_to_kebab` is
not among the sources; spec §4.1 rule 7 requires a canonical kebab-case
transformation applied token-by-token (and its concrete scenario 3 shows
`ResourceIdentifier` stripped to `resource`).  We model it as the usual
camel-case to kebab-case conversion: a hyphen is inserted at every
lower-to-upper boundary and all letters are lowercased. -/
def d2k : List Char → List Char
  | [] => []
  | [c] => [toLowerChar c]
  | a :: b :: rest =>
      if isLowerCh a && isUpperCh b then
        toLowerChar a :: '-' :: d2k (b :: rest)
      else
        toLowerChar a :: d2k (b :: rest)

theorem d2k_fix : ∀ l, noUpper l = true → d2k l = l
  | [] => by intro _; rfl
  | [c] => by
      intro h
      simp [noUpper] at h
      simp [d2k, toLowerChar_eq_self h]
  | a :: b :: rest => by
      intro h
      simp [noUpper] at h
      obtain ⟨ha, hb, hrest⟩ := h
      have htail : noUpper (b :: rest) = true := by
        simp [noUpper, hb, hrest]
        intro x hx
        exact hrest x hx
      simp [d2k, hb, toLowerChar_eq_self ha, d2k_fix (b :: rest) htail]

theorem d2k_noUpper : ∀ l, noUpper (d2k l) = true
  | [] => by rfl
  | [c] => by simp [d2k, noUpper, toLowerChar_not_upper]
  | a :: b :: rest => by
      have ih := d2k_noUpper (b :: rest)
      simp [noUpper] at ih
      by_cases h : isLowerCh a && isUpperCh b
      · simp [d2k, h, noUpper, toLowerChar_not_upper]
        constructor
        · decide
        · intro x hx; exact ih x hx
      · simp [d2k, h, noUpper, toLowerChar_not_upper]
        intro x hx; exact ih x hx

/-- Token-wise substitution, modelling `sub_only_text` from the source:
`re.sub(r"([a-zA-Z_-]+)", lambda m: repl(m.group(0)), string)` rewrites
every maximal run of token characters with `repl` and leaves the other
characters (slashes, digits, `#`, ...) alone.  `tok` accumulates the
current run in reverse. -/
def subGo (f : List Char → List Char) (tok : List Char) : List Char → List Char
  | [] => f tok.reverse
  | c :: cs =>
      if isTokenChar c then subGo f (c :: tok) cs
      else f tok.reverse ++ c :: subGo f [] cs

def sub_only_text (repl : List Char → List Char) (l : List Char) : List Char :=
  subGo repl [] l

theorem not_token_not_upper {c : Char} (h : isTokenChar c = false) :
    isUpperCh c = false := by
  simp [isTokenChar] at h
  exact h.1.1.1

theorem subGo_d2k_noUpper : ∀ (cs tok : List Char), noUpper (subGo d2k tok cs) = true
  | [], tok => by simp [subGo, d2k_noUpper]
  | c :: cs, tok => by
      by_cases h : isTokenChar c
      · simpa [subGo, h] using subGo_d2k_noUpper cs (c :: tok)
      · have ih := subGo_d2k_noUpper cs []
        have hu := not_token_not_upper (by simpa using h)
        have hd := d2k_noUpper tok.reverse
        simp [subGo, h, noUpper] at ih hd ⊢
        refine ⟨fun x hx => hd x hx, by simpa using hu, fun x hx => ih x hx⟩

theorem subGo_d2k_fix : ∀ (cs tok : List Char), noUpper cs = true → noUpper tok = true →
    subGo d2k tok cs = tok.reverse ++ cs
  | [], tok => by
      intro _ htok
      have : noUpper tok.reverse = true := by
        simp [noUpper] at htok ⊢
        intro x hx; exact htok x hx
      simp [subGo, d2k_fix _ this]
  | c :: cs, tok => by
      intro hcs htok
      simp [noUpper] at hcs
      obtain ⟨hc, hcs⟩ := hcs
      have hcs' : noUpper cs = true := by
        simp [noUpper]; intro x hx; exact hcs x hx
      by_cases h : isTokenChar c
      · have htok' : noUpper (c :: tok) = true := by
          simp [noUpper] at htok ⊢
          exact ⟨hc, fun x hx => htok x hx⟩
        simp [subGo, h, subGo_d2k_fix cs (c :: tok) hcs' htok']
      · have hrev : noUpper tok.reverse = true := by
          simp [noUpper] at htok ⊢
          intro x hx; exact htok x hx
        simp [subGo, h, d2k_fix _ hrev, subGo_d2k_fix cs [] hcs' (by rfl)]

/-- `sub_only_text d2k` is idempotent: its output contains no uppercase
letters, and on uppercase-free input it is the identity. -/
theorem sub_only_text_d2k_idem (l : List Char) :
    sub_only_text d2k (sub_only_text d2k l) = sub_only_text d2k l := by
  unfold sub_only_text
  simpa using subGo_d2k_fix (subGo d2k [] l) [] (subGo_d2k_noUpper l []) (by rfl)

/-! String-level wrappers and small string utilities. -/

def isPre : List Char → List Char → Bool
  | [], _ => true
  | _ :: _, [] => false
  | a :: as, b :: bs => a == b && isPre as bs

/-- `str.removeprefix(p)`. -/
def removePre (p l : List Char) : List Char :=
  if isPre p l then l.drop p.length else l

/-- `str.removesuffix(p)`. -/
def removeSuf (p l : List Char) : List Char :=
  (removePre p.reverse l.reverse).reverse

def removePreS (p s : String) : String := String.mk (removePre p.data s.data)

def removeSufS (p s : String) : String := String.mk (removeSuf p.data s.data)

/-- Modelled from the spec: kebab-case conversion of a whole string. -/
def dromedary_to_kebab (s : String) : String := String.mk (d2k s.data)

/-- `sub_only_text(dromedary_to_kebab, s)` at string level, as used for
reference paths. -/
def kebabRef (s : String) : String := String.mk (sub_only_text d2k s.data)

theorem kebabRef_idem (s : String) : kebabRef (kebabRef s) = kebabRef s := by
  simp [kebabRef, sub_only_text_d2k_idem]

/-- `str.replace(" ", "")` (removal of space characters only). -/
def despace (s : String) : String := String.mk (s.data.filter (fun c => c ≠ ' '))

/-- Python's substring test `needle in hay`. -/
def containsSeq (n : List Char) : List Char → Bool
  | [] => n.isEmpty
  | c :: rest => isPre n (c :: rest) || containsSeq n rest

def isSubstr (n h : String) : Bool := containsSeq n.data h.data

/-! ## The canonical patterns

Modelled from the spec: `MEX_ID_PATTERN` (mex.common.types.identifier)
and `TIMESTAMP_REGEX` (mex.common.types.timestamp) are not among the
sources.  The comparison logic only uses them as fixed sentinel strings
compared for equality with a fragment's `pattern` value, so their exact
text is irrelevant; the values below stand in for the real regexes. -/

def MEX_ID_PATTERN : String := "^[a-zA-Z0-9]\x7b14,22\x7d$"

def TIMESTAMP_REGEX : String :=
  "^[0-9]\x7b4\x7d(-[0-9]\x7b2\x7d)\x7b0,2\x7d(T[0-9]\x7b2\x7d(:[0-9]\x7b2\x7d)\x7b0,2\x7d)?$"

/-! ## The field normalizer (src/tests/models/test_model_schemas.py)

`prepare_field` mutates a fragment in place and can raise (KeyError on a
missing expected key, AttributeError on a non-mapping fragment or
non-string metadata, TypeError on a non-string reference).  It is
modelled as a function `Json → Option Json` where `none` means an
exception escaped.  Recursion is by fuel; `prepare_field` below supplies
fuel `jsize j + 1`, which lemma `prep_fuel_irrelevant` shows is enough. -/

/-- Python truthiness of a JSON-like value. -/
def truthy : Json → Bool
  | Json.null => false
  | Json.bool b => b
  | Json.num n => n != 0
  | Json.str s => s != ""
  | Json.arr l => !l.isEmpty
  | Json.obj es => !es.isEmpty

/-- Keep the first occurrence of each element, dropping later duplicates.
This is `dict.fromkeys` on the `json.dumps` serialisations: serialising
keeps dict insertion order, so dumps-string equality is exactly the
(order-sensitive) structural equality of this embedding, and the
dumps/loads round trip is the identity. -/
def dedupFirst : List Json → List Json
  | [] => []
  | x :: xs => x :: (dedupFirst xs).filter (fun y => y ≠ x)

/-- The value rewrite of `deduplicate_dicts`.  In `prepare_field` it is
only ever applied to the output of a recursive `prepare_field` call,
which is always a list (a dict value, whose keys Python would iterate,
cannot survive the preceding recursive call made on the same value; we
keep the dict case for totality). -/
def dedupValue : Json → Json
  | Json.arr l => Json.arr (dedupFirst l)
  | Json.obj es => Json.arr (dedupFirst (es.map (fun e => Json.str e.1)))
  | v => v

def deduplicate_dicts (es : Entries) (key : String) : Entries :=
  match plookup es key with
  | some v => pinsert es key (dedupValue v)
  | none => es

/-- `dissolve_single_item_lists`: if the value at `key` is a one-element
list holding a dict, pop the key and splice that dict's entries into the
parent.  In `prepare_field` the value is always a list (output of
`deduplicate_dicts`); other shapes are left alone. -/
def dissolve_single_item_lists (es : Entries) (key : String) : Entries :=
  match plookup es key with
  | some (Json.arr [Json.obj ce]) => pupdate (perase es key) ce
  | _ => es

/-- Run `f` over a list, failing (raising) at the first failure, exactly
like the `for item in obj: prepare_field(field, item)` loop. -/
def seqMap (f : Json → Option Json) : List Json → Option (List Json)
  | [] => some []
  | x :: xs =>
    match f x, seqMap f xs with
    | some y, some ys => some (y :: ys)
    | _, _ => none

/-- The three unconditional `obj.pop(..., None)` discards. -/
def dropStep (es : Entries) : Entries :=
  perase (perase (perase es "sameAs") "subPropertyOf") "description"

/-- Guard of the date/date-time unification branch. -/
def dateGuard (es : Entries) : Bool :=
  plookup es "format" == some (Json.str "date") ||
  plookup es "format" == some (Json.str "date-time") ||
  plookup es "pattern" == some (Json.str TIMESTAMP_REGEX)

def dateStep (es : Entries) : Entries :=
  if dateGuard es then
    pinsert (perase (perase es "examples") "pattern") "format" (Json.str "date-time")
  else es

/-- `title.removesuffix("Identifier").removeprefix("Merged").removeprefix("Extracted")`. -/
def stripTitle (t : String) : String :=
  removePreS "Extracted" (removePreS "Merged" (removeSufS "Identifier" t))

/-- The identifier-reference rewrite.  `titleJ` is the value popped from
the `title` key (Python defaults it to `""` when absent; a non-string
title makes `.removesuffix` raise, but only in the branch that uses it).
`obj.pop("type")` raises KeyError when `type` is absent. -/
def mexStep (field : String) (titleJ : Option Json) (es : Entries) : Option Entries :=
  if plookup es "pattern" == some (Json.str MEX_ID_PATTERN) then
    let es1 := perase es "pattern"
    match plookup es1 "type" with
    | none => none
    | some _ =>
      let es2 := perase es1 "type"
      if field == "identifier" || field == "stableTargetId" then
        some (pinsert es2 "$ref" (Json.str "/schema/fields/identifier"))
      else
        match titleJ with
        | none =>
            some (pinsert es2 "$ref"
              (Json.str ("/schema/entities/" ++ stripTitle "" ++ "#/identifier")))
        | some (Json.str t) =>
            some (pinsert es2 "$ref"
              (Json.str ("/schema/entities/" ++ stripTitle t ++ "#/identifier")))
        | some _ => none
  else some es

/-- The concept/vocabulary reference rewrite. -/
def conceptStep (vocab : String) (es : Entries) : Entries :=
  if plookup es "$ref" == some (Json.str "/schema/entities/concept#/identifier") then
    pinsert es "$ref" (Json.str ("/schema/fields/" ++ vocab))
  else es

/-- The kebab-case rewrite of `$ref`; `re.sub` raises on a non-string. -/
def kebabStep (es : Entries) : Option Entries :=
  match plookup es "$ref" with
  | none => some es
  | some (Json.str s) => some (pinsert es "$ref" (Json.str (kebabRef s)))
  | some _ => none

/-- All the non-recursive dict rewrites of `prepare_field`, in source
order: unconditional discards, popping `title`/`useScheme`, the date
unification, the identifier rewrite, the concept rewrite and the
kebab-case rewrite.  `use_scheme.removeprefix(...)` is evaluated
unconditionally in the source, so a non-string `useScheme` raises. -/
def pureSteps (field : String) (es : Entries) : Option Entries :=
  let es0 := dropStep es
  let titleJ := plookup es0 "title"
  let es1 := perase es0 "title"
  let schemeJ := plookup es1 "useScheme"
  let es2 := perase es1 "useScheme"
  match (match schemeJ with
         | none => some ""
         | some (Json.str us) => some us
         | some _ => none) with
  | none => none
  | some us =>
    let vocab := removePreS "https://mex.rki.de/item/" us
    match mexStep field titleJ (dateStep es2) with
    | none => none
    | some es4 => kebabStep (conceptStep vocab es4)

/-- One iteration of the quantifier loop: recursively prepare the value
under `key`, re-store it, deduplicate, dissolve.  `orig` holds the
entries as they were when the dict branch started: neither `pureSteps`
nor the array-items step ever adds, removes or modifies an
`anyOf`/`allOf` entry, so the membership test and the value fetched here
agree with the dict state at the start of Python's loop (whose iteration
set is computed once).  CPython iterates the set intersection in an
unspecified (hash-randomised) order; we fix the order anyOf-then-allOf. -/
def quantStep (recur : Json → Option Json) (orig cur : Entries) (key : String) :
    Option Entries :=
  match plookup orig key with
  | none => some cur
  | some qv =>
    match recur qv with
    | none => none
    | some qv' =>
        some (dissolve_single_item_lists
               (deduplicate_dicts (pinsert cur key qv') key) key)

/-- `prepare_field`, fuelled.  A list is normalized item by item and then
filtered for truthiness; a dict runs the pure rewrites, recurses into
`items` when the (rewritten) fragment is array-typed, and then processes
the quantifier keys; a scalar raises (`obj.pop` on a non-dict). -/
def prep : Nat → String → Json → Option Json
  | 0, _, _ => none
  | n + 1, field, Json.arr l =>
      match seqMap (prep n field) l with
      | none => none
      | some xs => some (Json.arr (xs.filter truthy))
  | n + 1, field, Json.obj es =>
      match pureSteps field es with
      | none => none
      | some m =>
        match (if plookup m "type" == some (Json.str "array") then
                 match plookup es "items" with
                 | none => none
                 | some itv =>
                   match prep n field itv with
                   | none => none
                   | some itv' => some (pinsert m "items" itv')
               else some m) with
        | none => none
        | some m2 =>
          match quantStep (prep n field) es m2 "anyOf" with
          | none => none
          | some m3 =>
            match quantStep (prep n field) es m3 "allOf" with
            | none => none
            | some m4 => some (Json.obj m4)
  | _ + 1, _, _ => none

def prepare_field (field : String) (j : Json) : Option Json :=
  prep (jsize j + 1) field j

/-- The alternatives of a union value after the first two stages of the
quantifier loop: recursive normalization (with falsy items dropped) and
deduplication.  `none` means the recursive normalization raised. -/
def prepQ (field : String) (l : List Json) : Option (List Json) :=
  match seqMap (prepare_field field) l with
  | none => none
  | some xs => some (dedupFirst (xs.filter truthy))

/-- No dict anywhere in the value carries an `anyOf`/`allOf` key
(fuelled; `noQuant` below supplies sufficient fuel). -/
def noQuantF : Nat → Json → Bool
  | 0, _ => false
  | n + 1, Json.arr l => l.all (noQuantF n)
  | n + 1, Json.obj es =>
      (plookup es "anyOf").isNone && (plookup es "allOf").isNone &&
      es.all (fun e => noQuantF n e.2)
  | _ + 1, _ => true

def noQuant (j : Json) : Bool := noQuantF (jsize j + 1) j

/-- No dict anywhere in the value holds a `$ref` equal to the generic
concept-identifier path (which a second normalization pass would rewrite
using the long-gone vocabulary). -/
def noCRefF : Nat → Json → Bool
  | 0, _ => false
  | n + 1, Json.arr l => l.all (noCRefF n)
  | n + 1, Json.obj es =>
      (plookup es "$ref" != some (Json.str "/schema/entities/concept#/identifier")) &&
      es.all (fun e => noCRefF n e.2)
  | _ + 1, _ => true

def noCRef (j : Json) : Bool := noCRefF (jsize j + 1) j

/-! ## Python `==` on JSON-like values

Recursive, order-insensitive on dicts (on dicts with unique keys, as all
Python dicts are), order-sensitive on lists, with bool/int cross-type
equality. -/

mutual
def peq : Json → Json → Bool
  | Json.null, Json.null => true
  | Json.bool a, Json.bool b => a == b
  | Json.bool a, Json.num m => (if a then (1 : Int) else 0) == m
  | Json.num n, Json.bool b => n == (if b then (1 : Int) else 0)
  | Json.num a, Json.num b => a == b
  | Json.str a, Json.str b => a == b
  | Json.arr as, Json.arr bs => peqL as bs
  | Json.obj aes, Json.obj bes => aes.length == bes.length && peqE aes bes
  | _, _ => false
def peqL : List Json → List Json → Bool
  | [], [] => true
  | a :: as, b :: bs => peq a b && peqL as bs
  | _, _ => false
def peqE : Entries → Entries → Bool
  | [], _ => true
  | e :: es, bes =>
      (match plookup bes e.1 with
       | some w => peq e.2 w
       | none => false) && peqE es bes
end

/-! ## Schema loader (SPECIFIED_SCHEMAS, lines 27-36)

Each specification file is given as `Option Json`: `none` models a file
whose JSON parse fails.  Per file the comprehension first binds and
truthiness-tests the document (the walrus assignment in the if-condition
— a falsy document is skipped before its title is ever read), then reads
`schema["title"]` (KeyError / TypeError / AttributeError when the
document is not a dict with a string title), skips titles starting with
"Concept", and otherwise keys the document by its despaced title.  Any
raise aborts the whole run, modelled by `Except.error`. -/

def titleOf (j : Json) : Option String :=
  match j with
  | Json.obj es =>
    match plookup es "title" with
    | some (Json.str t) => some t
    | _ => none
  | _ => none

def startsWithS (p s : String) : Bool := isPre p.data s.data

def loadSpecifiedSchemas : List (Option Json) → Except String (List (String × Json))
  | [] => Except.ok []
  | none :: _ => Except.error "json.load: malformed JSON"
  | some j :: rest =>
      if truthy j then
        match titleOf j with
        | none => Except.error "title missing or not a string"
        | some t =>
            if startsWithS "Concept" t then loadSpecifiedSchemas rest
            else
              match loadSpecifiedSchemas rest with
              | Except.error e => Except.error e
              | Except.ok out => Except.ok ((despace t, j) :: out)
      else loadSpecifiedSchemas rest

def insertSorted (p : String × Json) : List (String × Json) → List (String × Json)
  | [] => [p]
  | q :: qs => if q.1 < p.1 then q :: insertSorted p qs else p :: q :: qs

def sortByKey (l : Entries) : Entries := l.foldr insertSorted []

def buildDict (l : Entries) : Entries := l.foldl (fun acc e => pinsert acc e.1 e.2) []

/-- `SPECIFIED_SCHEMAS = dict(sorted({...}.items()))`. -/
def SPECIFIED_SCHEMAS_from (files : List (Option Json)) : Except String Entries :=
  match loadSpecifiedSchemas files with
  | Except.error e => Except.error e
  | Except.ok l => Except.ok (sortByKey (buildDict l))

/-! ## Comparator discriminant check (test_entity_type_matches_class_name) -/

def getPath (j : Json) (k : String) : Option Json :=
  match j with
  | Json.obj es => plookup es k
  | _ => none

/-- Python's `in` operator as used by the test: substring on strings,
membership on lists and dict keys, TypeError otherwise. -/
def pyIn (needle : String) (hay : Json) : Option Bool :=
  match hay with
  | Json.str s => some (isSubstr needle s)
  | Json.arr l => some (l.any (fun x => peq (Json.str needle) x))
  | Json.obj es => some (es.any (fun e => e.1 == needle))
  | _ => none

/-- `generated["properties"]["$type"]["const"]`. -/
def constPath (generated : Json) : Option Json :=
  match getPath generated "properties" with
  | some props =>
    match getPath props "$type" with
    | some ty => getPath ty "const"
    | none => none
  | none => none

/-- The discriminant check: `generated["title"] ==
generated["properties"]["$type"]["const"]` and
`specified["title"].replace(" ", "") in generated[...]["const"]`.
A missing key (KeyError) or a non-string specified title
(AttributeError on `.replace`) errors the test, modelled as `false`. -/
def test_entity_type_matches_class_name (generated specified : Json) : Bool :=
  match getPath generated "title" with
  | none => false
  | some gt =>
    match constPath generated with
    | none => false
    | some c =>
      match getPath specified "title" with
      | some (Json.str st) =>
          peq gt c &&
          (match pyIn (despace st) c with
           | some b => b
           | none => false)
      | _ => false

/-- A specification file that aborts loading: malformed JSON, or a truthy
document without a string `title`. -/
def specFileBad (file : Option Json) : Bool :=
  match file with
  | none => true
  | some j => truthy j && (titleOf j).isNone

/-- Whether loading the given specification files raises. -/
def loadFails (files : List (Option Json)) : Bool :=
  match loadSpecifiedSchemas files with
  | Except.error _ => true
  | Except.ok _ => false

/-! ## BaseSettings.get (src/mex/common/settings.py)

The settings context holds at most one settings instance.  The claim
concerns identity and typing only, so an instance is modelled by the
class it was constructed from; `parse_obj` constructs a fresh instance
of the requested class, and `isinstance` respects the class hierarchy
(every settings class subclasses BaseSettings). -/

inductive SettingsCls where
  | baseSettings
  | subA
  | subB
deriving DecidableEq

structure SettingsInstance where
  cls : SettingsCls
deriving DecidableEq

def isSubclass (c d : SettingsCls) : Bool :=
  c == d || d == SettingsCls.baseSettings

def parse_obj (c : SettingsCls) : SettingsInstance := ⟨c⟩

def isinstance (s : SettingsInstance) (c : SettingsCls) : Bool :=
  isSubclass s.cls c

/-- `BaseSettings.get` on class `c` in context `ctx`: when the context is
empty an instance of `c` is constructed and stored before the isinstance
check; then the (possibly just-stored) instance is returned if it is an
instance of `c`, else RuntimeError is raised.  The returned pair is
(result, context after the call). -/
def settings_get (c : SettingsCls) (ctx : Option SettingsInstance) :
    Except String SettingsInstance × Option SettingsInstance :=
  match ctx with
  | none =>
      let i := parse_obj c
      if isinstance i c then (Except.ok i, some i)
      else (Except.error "RuntimeError", some i)
  | some s =>
      if isinstance s c then (Except.ok s, some s)
      else (Except.error "RuntimeError", some s)

/-! ## DataValue.transform_strings_to_dict
(src/mex/common/wikidata/models/organization.py) -/

/-- The `pre=True` root validator: `values.get("value")`; a `None` or
string value (a missing key reads as `None`) is wrapped as
`{"value": {"language": None, "text": value}}`; anything else returns
`values` unchanged. -/
def transform_strings_to_dict (values : Entries) : Entries :=
  match plookup values "value" with
  | none => [("value", Json.obj [("language", Json.null), ("text", Json.null)])]
  | some Json.null => [("value", Json.obj [("language", Json.null), ("text", Json.null)])]
  | some (Json.str s) => [("value", Json.obj [("language", Json.null), ("text", Json.str s)])]
  | some _ => values

/-! ## Fuel irrelevance

`prep` computes the same result under any fuel exceeding the fragment
size, so `prepare_field`'s choice of `jsize j + 1` is canonical. -/

theorem seqMap_congr {f g : Json → Option Json} :
    ∀ {l : List Json}, (∀ x ∈ l, f x = g x) → seqMap f l = seqMap g l := by
  intro l
  induction l with
  | nil => intro _; rfl
  | cons x xs ih =>
    intro h
    have hx := h x (List.mem_cons_self _ _)
    have hxs := ih (fun y hy => h y (List.mem_cons_of_mem _ hy))
    simp [seqMap, hx, hxs]

theorem quantStep_congr {r1 r2 : Json → Option Json} {orig cur : Entries} {key : String}
    (h : ∀ qv, plookup orig key = some qv → r1 qv = r2 qv) :
    quantStep r1 orig cur key = quantStep r2 orig cur key := by
  cases hq : plookup orig key with
  | none => simp [quantStep, hq]
  | some qv => simp [quantStep, hq, h qv hq]

theorem prep_fuel_irrelevant :
    ∀ n m f j, jsize j < n → jsize j < m → prep n f j = prep m f j := by
  intro n
  induction n with
  | zero => intro m f j h _; exact absurd h (by omega)
  | succ n ih =>
    intro m f j hn hm
    have h1 := jsize_pos j
    obtain ⟨m', rfl⟩ : ∃ m', m = m' + 1 := ⟨m - 1, by omega⟩
    cases j with
    | null => rfl
    | bool b => rfl
    | num k => rfl
    | str s => rfl
    | arr l =>
      have hsz : ∀ x ∈ l, jsize x < n ∧ jsize x < m' := by
        intro x hx
        have := jsizeL_mem hx
        simp [jsize] at hn hm
        omega
      have : seqMap (prep n f) l = seqMap (prep m' f) l :=
        seqMap_congr (fun x hx => ih m' f x (hsz x hx).1 (hsz x hx).2)
      simp [prep, this]
    | obj es =>
      have hsz : ∀ k v, plookup es k = some v → jsize v < n ∧ jsize v < m' := by
        intro k v hkv
        have := plookup_size hkv
        simp [jsize] at hn hm
        omega
      simp only [prep]
      cases hps : pureSteps f es with
      | none => rfl
      | some m0 =>
        have hquant : ∀ (cur : Entries) (key : String),
            quantStep (prep n f) es cur key = quantStep (prep m' f) es cur key :=
          fun _ _ => quantStep_congr (fun qv hqv => ih m' f qv (hsz _ _ hqv).1 (hsz _ _ hqv).2)
        by_cases ht : (plookup m0 "type" == some (Json.str "array")) = true
        · cases hit : plookup es "items" with
          | none => simp only [if_pos ht, hit]
          | some itv =>
            have hi := ih m' f itv (hsz _ _ hit).1 (hsz _ _ hit).2
            simp only [if_pos ht, hit, hi]
            cases prep m' f itv with
            | none => rfl
            | some itv' => simp only [hquant]
        · simp only [if_neg ht]
          simp only [hquant]

theorem prep_eq_prepare_field {n : Nat} {f : String} {j : Json} (h : jsize j < n) :
    prep n f j = prepare_field f j :=
  prep_fuel_irrelevant n (jsize j + 1) f j h (by omega)

/-! ## Unfolding equations for prepare_field -/

theorem prepare_field_arr (f : String) (l : List Json) :
    prepare_field f (Json.arr l) =
      match seqMap (prepare_field f) l with
      | none => none
      | some xs => some (Json.arr (xs.filter truthy)) := by
  unfold prepare_field
  simp only [prep]
  have : seqMap (prep (jsize (Json.arr l)) f) l = seqMap (fun j => prep (jsize j + 1) f j) l := by
    refine seqMap_congr (fun x hx => ?_)
    have hs := jsizeL_mem hx
    exact prep_fuel_irrelevant _ _ f x (by simp [jsize]; omega) (by omega)
  rw [this]

theorem prepare_field_obj (f : String) (es : Entries) :
    prepare_field f (Json.obj es) =
      match pureSteps f es with
      | none => none
      | some m =>
        match (if plookup m "type" == some (Json.str "array") then
                 match plookup es "items" with
                 | none => none
                 | some itv =>
                   match prepare_field f itv with
                   | none => none
                   | some itv' => some (pinsert m "items" itv')
               else some m) with
        | none => none
        | some m2 =>
          match quantStep (prepare_field f) es m2 "anyOf" with
          | none => none
          | some m3 =>
            match quantStep (prepare_field f) es m3 "allOf" with
            | none => none
            | some m4 => some (Json.obj m4) := by
  unfold prepare_field
  simp only [prep]
  have hsz : ∀ k v, plookup es k = some v → jsize v < jsize (Json.obj es) := by
    intro k v hkv
    have := plookup_size hkv
    simp [jsize]; omega
  have hquant : ∀ (cur : Entries) (key : String),
      quantStep (prep (jsize (Json.obj es)) f) es cur key =
      quantStep (fun j => prep (jsize j + 1) f j) es cur key :=
    fun _ _ => quantStep_congr (fun qv hqv =>
      prep_fuel_irrelevant _ _ f qv (hsz _ _ hqv) (by omega))
  cases hps : pureSteps f es with
  | none => rfl
  | some m0 =>
    by_cases ht : (plookup m0 "type" == some (Json.str "array")) = true
    · cases hit : plookup es "items" with
      | none => simp only [if_pos ht, hit]
      | some itv =>
        have hi : prep (jsize (Json.obj es)) f itv = prep (jsize itv + 1) f itv :=
          prep_fuel_irrelevant _ _ f itv (hsz _ _ hit) (by omega)
        simp only [if_pos ht, hit, hi]
        cases prep (jsize itv + 1) f itv with
        | none => rfl
        | some itv' => simp only [hquant]
    · simp only [if_neg ht]
      simp only [hquant]

/-! ## Step lemmas for pureSteps -/

theorem plookup_dropStep_other {k : String} (h1 : k ≠ "sameAs") (h2 : k ≠ "subPropertyOf")
    (h3 : k ≠ "description") (es : Entries) : plookup (dropStep es) k = plookup es k := by
  unfold dropStep
  rw [plookup_perase_other (Ne.symm h3), plookup_perase_other (Ne.symm h2),
    plookup_perase_other (Ne.symm h1)]

theorem plookup_dropStep_dropped (es : Entries) :
    plookup (dropStep es) "sameAs" = none ∧
    plookup (dropStep es) "subPropertyOf" = none ∧
    plookup (dropStep es) "description" = none := by
  unfold dropStep
  refine ⟨?_, ?_, plookup_perase_self _ _⟩
  · rw [plookup_perase_other (by decide), plookup_perase_other (by decide)]
    exact plookup_perase_self _ _
  · rw [plookup_perase_other (by decide)]
    exact plookup_perase_self _ _

theorem dateStep_unfired {es : Entries} (h : dateGuard es = false) : dateStep es = es := by
  simp [dateStep, h]

theorem plookup_dateStep_fired {es : Entries} (h : dateGuard es = true) :
    plookup (dateStep es) "format" = some (Json.str "date-time") ∧
    plookup (dateStep es) "pattern" = none ∧
    plookup (dateStep es) "examples" = none := by
  simp only [dateStep, h, if_true]
  refine ⟨plookup_pinsert_self _ _ _, ?_, ?_⟩
  · rw [plookup_pinsert_other _ (by decide)]
    exact plookup_perase_self _ _
  · rw [plookup_pinsert_other _ (by decide), plookup_perase_other (by decide)]
    exact plookup_perase_self _ _

theorem plookup_dateStep_other {k : String} (hf : k ≠ "format") (hp : k ≠ "pattern")
    (he : k ≠ "examples") (es : Entries) : plookup (dateStep es) k = plookup es k := by
  unfold dateStep
  by_cases h : dateGuard es
  · simp only [h, if_true]
    rw [plookup_pinsert_other _ (Ne.symm hf), plookup_perase_other (Ne.symm hp),
      plookup_perase_other (Ne.symm he)]
  · simp [h]

theorem mexStep_not_fired {f : String} {tJ : Option Json} {es : Entries}
    (h : (plookup es "pattern" == some (Json.str MEX_ID_PATTERN)) = false) :
    mexStep f tJ es = some es := by
  simp [mexStep, h]

theorem mexStep_cases {f : String} {tJ : Option Json} {es m : Entries}
    (h : mexStep f tJ es = some m) :
    (m = es ∧ plookup es "pattern" ≠ some (Json.str MEX_ID_PATTERN)) ∨
    (∃ target : String,
      m = pinsert (perase (perase es "pattern") "type") "$ref" (Json.str target)) := by
  by_cases hp : (plookup es "pattern" == some (Json.str MEX_ID_PATTERN)) = true
  · right
    unfold mexStep at h
    simp only [hp, if_true] at h
    cases htype : plookup (perase es "pattern") "type" with
    | none => rw [htype] at h; cases h
    | some tv =>
      rw [htype] at h
      by_cases hf : (f == "identifier" || f == "stableTargetId") = true
      · simp only [hf, if_true] at h
        exact ⟨_, (Option.some.inj h).symm⟩
      · simp only [hf, if_false] at h
        cases tJ with
        | none => exact ⟨_, (Option.some.inj h).symm⟩
        | some tv2 =>
          cases tv2 with
          | str t => exact ⟨_, (Option.some.inj h).symm⟩
          | null => cases h
          | bool b => cases h
          | num n => cases h
          | arr l => cases h
          | obj oes => cases h
  · left
    have hp' : (plookup es "pattern" == some (Json.str MEX_ID_PATTERN)) = false := by
      simpa using hp
    rw [mexStep_not_fired hp'] at h
    refine ⟨(Option.some.inj h).symm, ?_⟩
    intro hcontra
    rw [hcontra] at hp'
    simp at hp'

theorem conceptStep_lookup_other {k : String} (h : k ≠ "$ref") (v : String) (es : Entries) :
    plookup (conceptStep v es) k = plookup es k := by
  unfold conceptStep
  split
  · rw [plookup_pinsert_other _ (Ne.symm h)]
  · rfl

theorem kebabStep_cases {es m : Entries} (h : kebabStep es = some m) :
    (plookup es "$ref" = none ∧ m = es) ∨
    (∃ s, plookup es "$ref" = some (Json.str s) ∧
      m = pinsert es "$ref" (Json.str (kebabRef s))) := by
  unfold kebabStep at h
  cases hr : plookup es "$ref" with
  | none =>
    rw [hr] at h
    exact Or.inl ⟨rfl, (Option.some.inj h).symm⟩
  | some v =>
    rw [hr] at h
    cases v with
    | str s => exact Or.inr ⟨s, rfl, (Option.some.inj h).symm⟩
    | null => cases h
    | bool b => cases h
    | num n => cases h
    | arr l => cases h
    | obj oes => cases h

/-- Decomposition of a successful `pureSteps` run into its stages. -/
theorem pureSteps_decompose {f : String} {es m : Entries} (h : pureSteps f es = some m) :
    ∃ (vocab : String) (es4 : Entries),
      mexStep f (plookup (dropStep es) "title")
        (dateStep (perase (perase (dropStep es) "title") "useScheme")) = some es4 ∧
      kebabStep (conceptStep vocab es4) = some m := by
  simp only [pureSteps] at h
  cases hs : plookup (perase (dropStep es) "title") "useScheme" with
  | none =>
    rw [hs] at h
    cases hmx : mexStep f (plookup (dropStep es) "title")
        (dateStep (perase (perase (dropStep es) "title") "useScheme")) with
    | none => rw [hmx] at h; cases h
    | some es4 =>
      rw [hmx] at h
      exact ⟨_, es4, rfl, h⟩
  | some v =>
    rw [hs] at h
    cases v with
    | str us =>
      cases hmx : mexStep f (plookup (dropStep es) "title")
          (dateStep (perase (perase (dropStep es) "title") "useScheme")) with
      | none => rw [hmx] at h; cases h
      | some es4 =>
        rw [hmx] at h
        exact ⟨_, es4, rfl, h⟩
    | null => cases h
    | bool b => cases h
    | num n => cases h
    | arr l => cases h
    | obj oes => cases h

/-- Keys other than the ones the pure rewrites touch pass from `es`
through to the entries right before the date step. -/
theorem pureSteps_transfer {f : String} {es m : Entries} (h : pureSteps f es = some m)
    {k : String} (h6 : k ≠ "examples") (h7 : k ≠ "pattern") (h8 : k ≠ "format")
    (h9 : k ≠ "type") (h10 : k ≠ "$ref") :
    plookup m k = plookup (perase (perase (dropStep es) "title") "useScheme") k := by
  obtain ⟨vocab, es4, hmx, hkb⟩ := pureSteps_decompose h
  have hm_cs : plookup m k = plookup (conceptStep vocab es4) k := by
    rcases kebabStep_cases hkb with ⟨_, rfl⟩ | ⟨s, _, rfl⟩
    · rfl
    · exact plookup_pinsert_other _ (Ne.symm h10) _
  rw [hm_cs, conceptStep_lookup_other h10]
  rcases mexStep_cases hmx with ⟨rfl, _⟩ | ⟨target, rfl⟩
  · exact plookup_dateStep_other h8 h7 h6 _
  · rw [plookup_pinsert_other _ (Ne.symm h10), plookup_perase_other (Ne.symm h9),
      plookup_perase_other (Ne.symm h7)]
    exact plookup_dateStep_other h8 h7 h6 _

theorem pureSteps_lookup_other {f : String} {es m : Entries} (h : pureSteps f es = some m)
    {k : String} (h1 : k ≠ "sameAs") (h2 : k ≠ "subPropertyOf") (h3 : k ≠ "description")
    (h4 : k ≠ "title") (h5 : k ≠ "useScheme") (h6 : k ≠ "examples") (h7 : k ≠ "pattern")
    (h8 : k ≠ "format") (h9 : k ≠ "type") (h10 : k ≠ "$ref") :
    plookup m k = plookup es k := by
  rw [pureSteps_transfer h h6 h7 h8 h9 h10, plookup_perase_other (Ne.symm h5),
    plookup_perase_other (Ne.symm h4), plookup_dropStep_other h1 h2 h3]

/-- The five unconditionally popped keys are absent from the output. -/
theorem pureSteps_pops_none {f : String} {es m : Entries} (h : pureSteps f es = some m) :
    plookup m "sameAs" = none ∧ plookup m "subPropertyOf" = none ∧
    plookup m "description" = none ∧ plookup m "title" = none ∧
    plookup m "useScheme" = none := by
  refine ⟨?_, ?_, ?_, ?_, ?_⟩
  · rw [pureSteps_transfer h (by decide) (by decide) (by decide) (by decide) (by decide),
      plookup_perase_other (by decide), plookup_perase_other (by decide)]
    exact (plookup_dropStep_dropped es).1
  · rw [pureSteps_transfer h (by decide) (by decide) (by decide) (by decide) (by decide),
      plookup_perase_other (by decide), plookup_perase_other (by decide)]
    exact (plookup_dropStep_dropped es).2.1
  · rw [pureSteps_transfer h (by decide) (by decide) (by decide) (by decide) (by decide),
      plookup_perase_other (by decide), plookup_perase_other (by decide)]
    exact (plookup_dropStep_dropped es).2.2
  · rw [pureSteps_transfer h (by decide) (by decide) (by decide) (by decide) (by decide),
      plookup_perase_other (by decide)]
    exact plookup_perase_self _ _
  · rw [pureSteps_transfer h (by decide) (by decide) (by decide) (by decide) (by decide)]
    exact plookup_perase_self _ _

/-- The output never carries the raw entity-identifier pattern. -/
theorem pureSteps_pattern_not_mex {f : String} {es m : Entries}
    (h : pureSteps f es = some m) :
    plookup m "pattern" ≠ some (Json.str MEX_ID_PATTERN) := by
  obtain ⟨vocab, es4, hmx, hkb⟩ := pureSteps_decompose h
  have hm : plookup m "pattern" = plookup es4 "pattern" := by
    rcases kebabStep_cases hkb with ⟨_, rfl⟩ | ⟨s, _, rfl⟩
    · exact conceptStep_lookup_other (by decide) _ _
    · rw [plookup_pinsert_other _ (by decide), conceptStep_lookup_other (by decide)]
  rw [hm]
  rcases mexStep_cases hmx with ⟨rfl, hne⟩ | ⟨target, rfl⟩
  · exact hne
  · rw [plookup_pinsert_other _ (by decide), plookup_perase_other (by decide),
      plookup_perase_self]
    simp

/-- When the output still satisfies the date guard, it is already in
date normal form: format is date-time and pattern/examples are gone. -/
theorem pureSteps_dateGuard {f : String} {es m : Entries} (h : pureSteps f es = some m) :
    dateGuard m = true →
      plookup m "format" = some (Json.str "date-time") ∧
      plookup m "pattern" = none ∧ plookup m "examples" = none := by
  obtain ⟨vocab, es4, hmx, hkb⟩ := pureSteps_decompose h
  have hfmt : plookup m "format" =
      plookup (dateStep (perase (perase (dropStep es) "title") "useScheme")) "format" := by
    have hm_cs : plookup m "format" = plookup (conceptStep vocab es4) "format" := by
      rcases kebabStep_cases hkb with ⟨_, rfl⟩ | ⟨s, _, rfl⟩
      · rfl
      · exact plookup_pinsert_other _ (by decide) _
    rw [hm_cs, conceptStep_lookup_other (by decide)]
    rcases mexStep_cases hmx with ⟨rfl, _⟩ | ⟨target, rfl⟩
    · rfl
    · rw [plookup_pinsert_other _ (by decide), plookup_perase_other (by decide),
        plookup_perase_other (by decide)]
  have hexm : plookup m "examples" =
      plookup (dateStep (perase (perase (dropStep es) "title") "useScheme")) "examples" := by
    have hm_cs : plookup m "examples" = plookup (conceptStep vocab es4) "examples" := by
      rcases kebabStep_cases hkb with ⟨_, rfl⟩ | ⟨s, _, rfl⟩
      · rfl
      · exact plookup_pinsert_other _ (by decide) _
    rw [hm_cs, conceptStep_lookup_other (by decide)]
    rcases mexStep_cases hmx with ⟨rfl, _⟩ | ⟨target, rfl⟩
    · rfl
    · rw [plookup_pinsert_other _ (by decide), plookup_perase_other (by decide),
        plookup_perase_other (by decide)]
  have hpat : plookup m "pattern" = plookup es4 "pattern" := by
    rcases kebabStep_cases hkb with ⟨_, rfl⟩ | ⟨s, _, rfl⟩
    · exact conceptStep_lookup_other (by decide) _ _
    · rw [plookup_pinsert_other _ (by decide), conceptStep_lookup_other (by decide)]
  by_cases hdg : dateGuard (perase (perase (dropStep es) "title") "useScheme") = true
  · obtain ⟨hf, hp, he⟩ := plookup_dateStep_fired hdg
    intro _
    refine ⟨hfmt.trans hf, ?_, hexm.trans he⟩
    rw [hpat]
    rcases mexStep_cases hmx with ⟨rfl, _⟩ | ⟨target, rfl⟩
    · exact hp
    · rw [plookup_pinsert_other _ (by decide), plookup_perase_other (by decide),
        plookup_perase_self]
  · intro hdgm
    exfalso
    have hdg' : dateGuard (perase (perase (dropStep es) "title") "useScheme") = false := by
      simpa using hdg
    have hdg0 := hdg'
    rw [dateStep_unfired hdg'] at hfmt hexm
    simp only [dateGuard, Bool.or_eq_false_iff, beq_eq_false_iff_ne, ne_eq] at hdg'
    obtain ⟨⟨hd1, hd2⟩, hd3⟩ := hdg'
    simp only [dateGuard, Bool.or_eq_true, beq_iff_eq] at hdgm
    rcases hdgm with (hm1 | hm2) | hm3
    · rw [hfmt] at hm1; exact hd1 hm1
    · rw [hfmt] at hm2; exact hd2 hm2
    · rw [hpat] at hm3
      rcases mexStep_cases hmx with ⟨rfl, _⟩ | ⟨target, rfl⟩
      · rw [dateStep_unfired hdg0] at hm3
        exact hd3 hm3
      · rw [plookup_pinsert_other _ (by decide), plookup_perase_other (by decide),
          plookup_perase_self] at hm3
        cases hm3

/-- Any reference in the output has already been kebab-cased. -/
theorem pureSteps_ref_kebab {f : String} {es m : Entries} (h : pureSteps f es = some m) :
    ∀ v, plookup m "$ref" = some v → ∃ s, v = Json.str (kebabRef s) := by
  obtain ⟨vocab, es4, hmx, hkb⟩ := pureSteps_decompose h
  rcases kebabStep_cases hkb with ⟨hnone, rfl⟩ | ⟨s, hsome, rfl⟩
  · intro v hv; rw [hnone] at hv; cases hv
  · intro v hv
    rw [plookup_pinsert_self] at hv
    exact ⟨s, (Option.some.inj hv).symm⟩

/-- When the date guard holds before the date step, the output of
`pureSteps` is in date normal form. -/
theorem pureSteps_fired_form {f : String} {es m : Entries} (h : pureSteps f es = some m)
    (hdg : dateGuard (perase (perase (dropStep es) "title") "useScheme") = true) :
    plookup m "format" = some (Json.str "date-time") ∧
    plookup m "pattern" = none ∧ plookup m "examples" = none := by
  obtain ⟨vocab, es4, hmx, hkb⟩ := pureSteps_decompose h
  obtain ⟨hf, hp, he⟩ := plookup_dateStep_fired hdg
  have hm_cs : ∀ k, k ≠ "$ref" → plookup m k = plookup (conceptStep vocab es4) k := by
    intro k hk
    rcases kebabStep_cases hkb with ⟨_, rfl⟩ | ⟨s, _, rfl⟩
    · rfl
    · exact plookup_pinsert_other _ (Ne.symm hk) _
  refine ⟨?_, ?_, ?_⟩
  · rw [hm_cs _ (by decide), conceptStep_lookup_other (by decide)]
    rcases mexStep_cases hmx with ⟨rfl, _⟩ | ⟨target, rfl⟩
    · exact hf
    · rw [plookup_pinsert_other _ (by decide), plookup_perase_other (by decide),
        plookup_perase_other (by decide)]
      exact hf
  · rw [hm_cs _ (by decide), conceptStep_lookup_other (by decide)]
    rcases mexStep_cases hmx with ⟨rfl, _⟩ | ⟨target, rfl⟩
    · exact hp
    · rw [plookup_pinsert_other _ (by decide), plookup_perase_other (by decide),
        plookup_perase_self]
  · rw [hm_cs _ (by decide), conceptStep_lookup_other (by decide)]
    rcases mexStep_cases hmx with ⟨rfl, _⟩ | ⟨target, rfl⟩
    · exact he
    · rw [plookup_pinsert_other _ (by decide), plookup_perase_other (by decide),
        plookup_perase_other (by decide)]
      exact he

/-- A dict with none of the keys the pure rewrites read is left
untouched by them. -/
theorem pureSteps_no_rule (f : String) (es : Entries)
    (h1 : plookup es "sameAs" = none) (h2 : plookup es "subPropertyOf" = none)
    (h3 : plookup es "description" = none) (h4 : plookup es "title" = none)
    (h5 : plookup es "useScheme" = none) (h6 : plookup es "format" = none)
    (h7 : plookup es "pattern" = none) (h8 : plookup es "$ref" = none) :
    pureSteps f es = some es := by
  have hdrop : dropStep es = es := by
    unfold dropStep
    rw [perase_of_not_mem h1, perase_of_not_mem h2, perase_of_not_mem h3]
  have hdg : dateGuard es = false := by
    simp [dateGuard, h6, h7]
  have hmex : (plookup es "pattern" == some (Json.str MEX_ID_PATTERN)) = false := by
    simp [h7]
  simp only [pureSteps, hdrop, perase_of_not_mem h4, perase_of_not_mem h5, h4, h5]
  rw [dateStep_unfired hdg, mexStep_not_fired hmex]
  simp [conceptStep, kebabStep, h8]

/-! ## C1: prepare_field never raises / no-rule fragments unchanged -/

/-- C1 counterexample: an array-typed fragment without an `items` key
makes `prepare_field` raise (`obj["items"]` is a KeyError), refuting the
claim that normalization never raises; the same run also shows a
fragment the claim calls out explicitly. -/
theorem prepare_field_array_without_items_raises :
    prepare_field "x" (Json.obj [("type", Json.str "array")]) = none := by decide

/-- C1 amended: a dict fragment carrying none of the keys any
normalization rule looks at is returned unchanged (and in particular
normalization succeeds on it). -/
theorem prepare_field_no_rule_unchanged :
    ∀ (f : String) (es : Entries),
      plookup es "sameAs" = none → plookup es "subPropertyOf" = none →
      plookup es "description" = none → plookup es "title" = none →
      plookup es "useScheme" = none → plookup es "format" = none →
      plookup es "pattern" = none → plookup es "$ref" = none →
      plookup es "type" = none → plookup es "anyOf" = none →
      plookup es "allOf" = none →
      prepare_field f (Json.obj es) = some (Json.obj es) := by
  intro f es h1 h2 h3 h4 h5 h6 h7 h8 h9 h10 h11
  have hps : pureSteps f es = some es := pureSteps_no_rule f es h1 h2 h3 h4 h5 h6 h7 h8
  rw [prepare_field_obj, hps]
  have harr : (plookup es "type" == some (Json.str "array")) = false := by simp [h9]
  simp [harr, quantStep, h10, h11]

/-- C1 witness: a fragment with only an untouched key is left unchanged
by normalization. -/
theorem prepare_field_no_rule_unchanged_witness :
    prepare_field "x" (Json.obj [("minLength", Json.num 1)]) =
      some (Json.obj [("minLength", Json.num 1)]) :=
  prepare_field_no_rule_unchanged "x" [("minLength", Json.num 1)]
    (by decide) (by decide) (by decide) (by decide) (by decide) (by decide)
    (by decide) (by decide) (by decide) (by decide) (by decide)

/-! ## C3: date unification -/

/-- C3 counterexample: a fragment that declares `format: date` but also
carries a single-alternative union whose surviving alternative holds a
`pattern` key normalizes to a fragment that still has a `pattern` key
(the dissolution step splices it back in after the date rewrite), so the
claimed pattern-free normal form does not hold for every fragment. -/
theorem prepare_field_date_pattern_resurrected :
    prepare_field "x" (Json.obj [("format", Json.str "date"),
        ("anyOf", Json.arr [Json.obj [("pattern", Json.str "q")]])]) =
      some (Json.obj [("format", Json.str "date-time"), ("pattern", Json.str "q")]) ∧
    plookup [("format", Json.str "date-time"), ("pattern", Json.str "q")] "pattern" =
      some (Json.str "q") := by
  constructor
  · decide
  · decide

/-- C3 amended: a union-free fragment that declares `format: date` or
`format: date-time`, or whose `pattern` equals the canonical timestamp
regex, normalizes (when normalization succeeds) to a fragment with
`format: date-time` and with no `pattern` and no `examples` key. -/
theorem prepare_field_date_normal_form :
    ∀ (f : String) (es : Entries) (r : Json),
      dateGuard es = true →
      plookup es "anyOf" = none → plookup es "allOf" = none →
      prepare_field f (Json.obj es) = some r →
      ∃ res : Entries, r = Json.obj res ∧
        plookup res "format" = some (Json.str "date-time") ∧
        plookup res "pattern" = none ∧ plookup res "examples" = none := by
  intro f es r hdg hany hall hsucc
  rw [prepare_field_obj] at hsucc
  cases hps : pureSteps f es with
  | none => simp only [hps] at hsucc; cases hsucc
  | some m =>
    simp only [hps] at hsucc
    have hdg2 : dateGuard (perase (perase (dropStep es) "title") "useScheme") = true := by
      have hf : plookup (perase (perase (dropStep es) "title") "useScheme") "format" =
          plookup es "format" := by
        rw [plookup_perase_other (by decide), plookup_perase_other (by decide),
          plookup_dropStep_other (by decide) (by decide) (by decide)]
      have hp : plookup (perase (perase (dropStep es) "title") "useScheme") "pattern" =
          plookup es "pattern" := by
        rw [plookup_perase_other (by decide), plookup_perase_other (by decide),
          plookup_dropStep_other (by decide) (by decide) (by decide)]
      simpa [dateGuard, hf, hp] using hdg
    obtain ⟨hmf, hmp, hme⟩ := pureSteps_fired_form hps hdg2
    cases hif : (if (plookup m "type" == some (Json.str "array")) = true then
                   match plookup es "items" with
                   | none => none
                   | some itv =>
                     match prepare_field f itv with
                     | none => none
                     | some itv' => some (pinsert m "items" itv')
                 else some m) with
    | none => simp only [hif] at hsucc; cases hsucc
    | some m2 =>
      simp only [hif] at hsucc
      have hm2 : plookup m2 "format" = some (Json.str "date-time") ∧
          plookup m2 "pattern" = none ∧ plookup m2 "examples" = none := by
        by_cases ht : (plookup m "type" == some (Json.str "array")) = true
        · rw [if_pos ht] at hif
          cases hit : plookup es "items" with
          | none => simp only [hit] at hif; cases hif
          | some itv =>
            simp only [hit] at hif
            cases hpi : prepare_field f itv with
            | none => simp only [hpi] at hif; cases hif
            | some itv' =>
              simp only [hpi] at hif
              obtain rfl := Option.some.inj hif
              rw [plookup_pinsert_other _ (by decide), plookup_pinsert_other _ (by decide),
                plookup_pinsert_other _ (by decide)]
              exact ⟨hmf, hmp, hme⟩
        · rw [if_neg ht] at hif
          obtain rfl := Option.some.inj hif
          exact ⟨hmf, hmp, hme⟩
      have hq1 : quantStep (prepare_field f) es m2 "anyOf" = some m2 := by
        simp [quantStep, hany]
      have hq2 : quantStep (prepare_field f) es m2 "allOf" = some m2 := by
        simp [quantStep, hall]
      simp only [hq1, hq2] at hsucc
      obtain rfl := Option.some.inj hsucc
      exact ⟨m2, rfl, hm2.1, hm2.2.1, hm2.2.2⟩

/-- C3 witness: a plain date fragment reaches the normal form. -/
theorem prepare_field_date_normal_form_witness :
    ∃ res : Entries, (some (Json.obj [("format", Json.str "date-time")]) : Option Json) =
        Json.obj res ∧
      plookup res "format" = some (Json.str "date-time") ∧
      plookup res "pattern" = none ∧ plookup res "examples" = none := by
  have h := prepare_field_date_normal_form "f" [("format", Json.str "date")]
    (Json.obj [("format", Json.str "date-time")])
    (by decide) (by decide) (by decide) (by decide)
  obtain ⟨res, hr, h1, h2, h3⟩ := h
  exact ⟨res, by rw [hr], h1, h2, h3⟩

/-! ## C4: the identifier reference rewrite -/

theorem mexStep_fired_id {f : String} (tJ : Option Json) {es : Entries}
    (hp : plookup es "pattern" = some (Json.str MEX_ID_PATTERN))
    (htype : plookup es "type" ≠ none)
    (hf : (f == "identifier" || f == "stableTargetId") = true) :
    mexStep f tJ es = some (pinsert (perase (perase es "pattern") "type") "$ref"
      (Json.str "/schema/fields/identifier")) := by
  have hguard : (plookup es "pattern" == some (Json.str MEX_ID_PATTERN)) = true := by
    simp [hp]
  have hty : plookup (perase es "pattern") "type" = plookup es "type" :=
    plookup_perase_other (by decide) _
  cases htv : plookup es "type" with
  | none => exact absurd htv htype
  | some tv => simp only [mexStep, hguard, if_true, hty, htv, hf]

theorem mexStep_fired_title {f : String} (t : String) {es : Entries}
    (hp : plookup es "pattern" = some (Json.str MEX_ID_PATTERN))
    (htype : plookup es "type" ≠ none)
    (hf : (f == "identifier" || f == "stableTargetId") = false) :
    mexStep f (some (Json.str t)) es =
      some (pinsert (perase (perase es "pattern") "type") "$ref"
        (Json.str ("/schema/entities/" ++ stripTitle t ++ "#/identifier"))) := by
  have hguard : (plookup es "pattern" == some (Json.str MEX_ID_PATTERN)) = true := by
    simp [hp]
  have hty : plookup (perase es "pattern") "type" = plookup es "type" :=
    plookup_perase_other (by decide) _
  cases htv : plookup es "type" with
  | none => exact absurd htv htype
  | some tv =>
    simp only [mexStep, hguard, if_true, hty, htv, hf, Bool.false_eq_true, if_false]

theorem entities_ref_ne_concept {a : String} (h : a ≠ "concept") :
    "/schema/entities/" ++ a ++ "#/identifier" ≠ "/schema/entities/concept#/identifier" := by
  intro hc
  apply h
  apply String.ext
  have hd : "/schema/entities/".data ++ a.data ++ "#/identifier".data =
      "/schema/entities/".data ++ "concept".data ++ "#/identifier".data := by
    have h1 : ("/schema/entities/" ++ a ++ "#/identifier").data =
        "/schema/entities/".data ++ a.data ++ "#/identifier".data := rfl
    have h2 : ("/schema/entities/concept#/identifier" : String).data =
        "/schema/entities/".data ++ "concept".data ++ "#/identifier".data := by decide
    rw [← h1, ← h2, hc]
  have hd2 := List.append_cancel_right hd
  exact List.append_cancel_left hd2

/-- Shared computation for the identifier rewrite: once the `mexStep`
stage is known to fire with target reference `target` (and the date
branch does not interfere), the whole normalization succeeds and the
output replaces pattern/type with the kebab-cased reference. -/
theorem prepare_field_mex_core :
    ∀ (f : String) (es : Entries) (target : String),
      plookup es "format" ≠ some (Json.str "date") →
      plookup es "format" ≠ some (Json.str "date-time") →
      plookup es "useScheme" = none →
      plookup es "anyOf" = none → plookup es "allOf" = none →
      target ≠ "/schema/entities/concept#/identifier" →
      mexStep f (plookup (dropStep es) "title")
          (dateStep (perase (perase (dropStep es) "title") "useScheme")) =
        some (pinsert
          (perase (perase (dateStep (perase (perase (dropStep es) "title") "useScheme"))
            "pattern") "type") "$ref" (Json.str target)) →
      ∃ res : Entries, prepare_field f (Json.obj es) = some (Json.obj res) ∧
        plookup res "pattern" = none ∧ plookup res "type" = none ∧
        plookup res "$ref" = some (Json.str (kebabRef target)) := by
  intro f es target hfd hfdt hus hany hall htgt habs
  have hus1 : plookup (perase (dropStep es) "title") "useScheme" = none := by
    rw [plookup_perase_other (by decide),
      plookup_dropStep_other (by decide) (by decide) (by decide)]
    exact hus
  have href4 : ∀ X : Entries, plookup (pinsert X "$ref" (Json.str target)) "$ref" =
      some (Json.str target) := fun X => plookup_pinsert_self _ _ _
  have hcs : ∀ (v : String) (X : Entries),
      conceptStep v (pinsert X "$ref" (Json.str target)) = pinsert X "$ref" (Json.str target) := by
    intro v X
    have : (plookup (pinsert X "$ref" (Json.str target)) "$ref" ==
        some (Json.str "/schema/entities/concept#/identifier")) = false := by
      rw [href4 X]
      simp [htgt]
    simp [conceptStep, this]
  have hkb : ∀ X : Entries, kebabStep (pinsert X "$ref" (Json.str target)) =
      some (pinsert (pinsert X "$ref" (Json.str target)) "$ref"
        (Json.str (kebabRef target))) := by
    intro X
    unfold kebabStep
    rw [href4 X]
  have hps : pureSteps f es =
      some (pinsert
        (pinsert (perase (perase (dateStep (perase (perase (dropStep es) "title")
          "useScheme")) "pattern") "type") "$ref" (Json.str target))
        "$ref" (Json.str (kebabRef target))) := by
    simp only [pureSteps, hus1, habs, hcs, hkb]
  rw [prepare_field_obj, hps]
  have hmtype : plookup
      (pinsert (pinsert (perase (perase (dateStep (perase (perase (dropStep es) "title")
        "useScheme")) "pattern") "type") "$ref" (Json.str target))
        "$ref" (Json.str (kebabRef target))) "type" = none := by
    rw [plookup_pinsert_other _ (by decide), plookup_pinsert_other _ (by decide),
      plookup_perase_self]
  have harr : (plookup
      (pinsert (pinsert (perase (perase (dateStep (perase (perase (dropStep es) "title")
        "useScheme")) "pattern") "type") "$ref" (Json.str target))
        "$ref" (Json.str (kebabRef target))) "type" ==
      some (Json.str "array")) = false := by
    rw [hmtype]; rfl
  simp only [harr, Bool.false_eq_true, if_false]
  have hq1 : ∀ cur : Entries, quantStep (prepare_field f) es cur "anyOf" = some cur := by
    intro cur; simp [quantStep, hany]
  have hq2 : ∀ cur : Entries, quantStep (prepare_field f) es cur "allOf" = some cur := by
    intro cur; simp [quantStep, hall]
  simp only [hq1, hq2]
  refine ⟨_, rfl, ?_, hmtype, ?_⟩
  · rw [plookup_pinsert_other _ (by decide), plookup_pinsert_other _ (by decide),
      plookup_perase_other (by decide), plookup_perase_self]
  · exact plookup_pinsert_self _ _ _

/-- C4 counterexample: a fragment whose `pattern` is the canonical
entity-identifier pattern but which also declares `format: date` is
consumed by the date rule first (which pops the pattern), so no `$ref`
is ever added, refuting the unconditional rewrite claim. -/
theorem prepare_field_mex_date_interference :
    prepare_field "foo" (Json.obj [("pattern", Json.str MEX_ID_PATTERN),
        ("format", Json.str "date"), ("type", Json.str "string")]) =
      some (Json.obj [("format", Json.str "date-time"), ("type", Json.str "string")]) ∧
    plookup [("format", Json.str "date-time"), ("type", Json.str "string")] "$ref" = none := by
  constructor
  · decide
  · decide

/-- C4 amended: for a union-free fragment whose `pattern` equals the
canonical entity-identifier pattern, that does not also trigger the date
rule, has a `type` key and a string `useScheme`-free context: for the
universal identifier fields the rewrite installs
`/schema/fields/identifier`; otherwise (title a string, whose stripped
entity name is not the concept vocabulary) it installs the kebab-cased
`/schema/entities/{name}#/identifier`; in both cases `pattern` and
`type` are removed. -/
theorem prepare_field_identifier_ref_rewrite :
    ∀ (f : String) (es : Entries) (t : String),
      plookup es "pattern" = some (Json.str MEX_ID_PATTERN) →
      plookup es "format" ≠ some (Json.str "date") →
      plookup es "format" ≠ some (Json.str "date-time") →
      plookup es "type" ≠ none →
      plookup es "useScheme" = none →
      plookup es "anyOf" = none → plookup es "allOf" = none →
      ((f == "identifier" || f == "stableTargetId") = true →
        ∃ res : Entries, prepare_field f (Json.obj es) = some (Json.obj res) ∧
          plookup res "pattern" = none ∧ plookup res "type" = none ∧
          plookup res "$ref" = some (Json.str "/schema/fields/identifier")) ∧
      ((f == "identifier" || f == "stableTargetId") = false →
        plookup es "title" = some (Json.str t) →
        stripTitle t ≠ "concept" →
        ∃ res : Entries, prepare_field f (Json.obj es) = some (Json.obj res) ∧
          plookup res "pattern" = none ∧ plookup res "type" = none ∧
          plookup res "$ref" =
            some (Json.str (kebabRef ("/schema/entities/" ++ stripTitle t ++ "#/identifier")))) := by
  intro f es t hp hfd hfdt htype hus hany hall
  have hdg2 : dateGuard (perase (perase (dropStep es) "title") "useScheme") = false := by
    have hf : plookup (perase (perase (dropStep es) "title") "useScheme") "format" =
        plookup es "format" := by
      rw [plookup_perase_other (by decide), plookup_perase_other (by decide),
        plookup_dropStep_other (by decide) (by decide) (by decide)]
    have hpt : plookup (perase (perase (dropStep es) "title") "useScheme") "pattern" =
        plookup es "pattern" := by
      rw [plookup_perase_other (by decide), plookup_perase_other (by decide),
        plookup_dropStep_other (by decide) (by decide) (by decide)]
    have hb1 : (plookup es "format" == some (Json.str "date")) = false :=
      beq_eq_false_iff_ne.mpr hfd
    have hb2 : (plookup es "format" == some (Json.str "date-time")) = false :=
      beq_eq_false_iff_ne.mpr hfdt
    have hb3 : ((some (Json.str MEX_ID_PATTERN) : Option Json) ==
        some (Json.str TIMESTAMP_REGEX)) = false := by decide
    simp only [dateGuard, hf, hpt, hp, hb1, hb2, hb3, Bool.or_false, Bool.false_or]
  have hdate_eq : dateStep (perase (perase (dropStep es) "title") "useScheme") =
      perase (perase (dropStep es) "title") "useScheme" := dateStep_unfired hdg2
  have hpt2 : plookup (dateStep (perase (perase (dropStep es) "title") "useScheme"))
      "pattern" = some (Json.str MEX_ID_PATTERN) := by
    rw [hdate_eq, plookup_perase_other (by decide), plookup_perase_other (by decide),
      plookup_dropStep_other (by decide) (by decide) (by decide)]
    exact hp
  have hty2 : plookup (dateStep (perase (perase (dropStep es) "title") "useScheme"))
      "type" ≠ none := by
    rw [hdate_eq, plookup_perase_other (by decide), plookup_perase_other (by decide),
      plookup_dropStep_other (by decide) (by decide) (by decide)]
    exact htype
  constructor
  · intro hfid
    have habs := mexStep_fired_id (plookup (dropStep es) "title") hpt2 hty2 hfid
    have h := prepare_field_mex_core f es "/schema/fields/identifier"
      hfd hfdt hus hany hall (by decide) habs
    have hkr : kebabRef "/schema/fields/identifier" = "/schema/fields/identifier" := by
      decide
    rw [hkr] at h
    exact h
  · intro hfid htitle hconcept
    have htJ : plookup (dropStep es) "title" = some (Json.str t) := by
      rw [plookup_dropStep_other (by decide) (by decide) (by decide)]
      exact htitle
    have habs := mexStep_fired_title t hpt2 hty2 hfid
    rw [← htJ] at habs
    exact prepare_field_mex_core f es _ hfd hfdt hus hany hall
      (entities_ref_ne_concept hconcept) habs

/-- C4 witness: the concrete scenario from the claim: a field named
`identifier` that is exactly the raw pattern/type pair normalizes to
exactly the shared identifier reference. -/
theorem prepare_field_identifier_ref_rewrite_witness :
    (∃ res : Entries,
      prepare_field "identifier"
          (Json.obj [("pattern", Json.str MEX_ID_PATTERN), ("type", Json.str "string")]) =
        some (Json.obj res) ∧
      plookup res "pattern" = none ∧ plookup res "type" = none ∧
      plookup res "$ref" = some (Json.str "/schema/fields/identifier")) ∧
    prepare_field "identifier"
        (Json.obj [("pattern", Json.str MEX_ID_PATTERN), ("type", Json.str "string")]) =
      some (Json.obj [("$ref", Json.str "/schema/fields/identifier")]) := by
  constructor
  · exact (prepare_field_identifier_ref_rewrite "identifier"
      [("pattern", Json.str MEX_ID_PATTERN), ("type", Json.str "string")] ""
      (by decide) (by decide) (by decide) (by decide) (by decide) (by decide)
      (by decide)).1 (by decide)
  · decide

/-! ## C5: list collapse and single-choice dissolution -/

/-- Processing a union value and then deduplicating it, exactly as the
quantifier loop does before dissolving. -/
theorem quantStep_on_anyOf (f : String) (l : List Json) (xs : List Json)
    (hseq : seqMap (prepare_field f) l = some xs) :
    quantStep (prepare_field f) [("anyOf", Json.arr l)] [("anyOf", Json.arr l)] "anyOf" =
      some (dissolve_single_item_lists
        [("anyOf", Json.arr (dedupFirst (xs.filter truthy)))] "anyOf") := by
  have hany : plookup [("anyOf", Json.arr l)] "anyOf" = some (Json.arr l) := by
    simp [plookup]
  have hrecur : prepare_field f (Json.arr l) = some (Json.arr (xs.filter truthy)) := by
    rw [prepare_field_arr, hseq]
  simp only [quantStep, hany, hrecur]
  simp [deduplicate_dicts, dedupValue, plookup, pinsert]

/-- End-to-end handling of a fragment that is a single `anyOf` union:
once the alternatives process to `d`, the result is the dissolution
applied to the parent holding `d`. -/
theorem prepare_field_anyOf_eq (f : String) (l : List Json) (d : List Json)
    (h : prepQ f l = some d) :
    prepare_field f (Json.obj [("anyOf", Json.arr l)]) =
      some (Json.obj (dissolve_single_item_lists [("anyOf", Json.arr d)] "anyOf")) := by
  obtain ⟨xs, hseq, hd⟩ : ∃ xs, seqMap (prepare_field f) l = some xs ∧
      dedupFirst (xs.filter truthy) = d := by
    unfold prepQ at h
    cases hs : seqMap (prepare_field f) l with
    | none => rw [hs] at h; cases h
    | some xs => rw [hs] at h; exact ⟨xs, rfl, Option.some.inj h⟩
  have hps : pureSteps f [("anyOf", Json.arr l)] = some [("anyOf", Json.arr l)] :=
    pureSteps_no_rule f _ (by simp +decide [plookup]) (by simp +decide [plookup])
      (by simp +decide [plookup]) (by simp +decide [plookup]) (by simp +decide [plookup])
      (by simp +decide [plookup]) (by simp +decide [plookup]) (by simp +decide [plookup])
  rw [prepare_field_obj, hps]
  have harr : (plookup [("anyOf", Json.arr l)] "type" == some (Json.str "array")) = false := by
    simp +decide [plookup]
  simp only [harr, Bool.false_eq_true, if_false]
  have hq1 := quantStep_on_anyOf f l xs hseq
  rw [hd] at hq1
  simp only [hq1]
  have hq2 : quantStep (prepare_field f) [("anyOf", Json.arr l)]
      (dissolve_single_item_lists [("anyOf", Json.arr d)] "anyOf") "allOf" =
      some (dissolve_single_item_lists [("anyOf", Json.arr d)] "anyOf") := by
    simp +decide [quantStep, plookup]
  simp only [hq2]

/-- C5: every sequence of fragments is normalized item by item with
falsy items dropped; a one-element list of a dict under a union key is
dissolved into the parent; and end to end, a union whose alternatives
deduplicate to a single dict normalizes to that dict's entries spliced
into the (emptied) parent. -/
theorem prepare_field_list_collapse :
    ∀ (f : String) (l : List Json) (es : Entries) (key : String) (ce : Entries)
      (xs : List Json),
      (prepare_field f (Json.arr l) =
        match seqMap (prepare_field f) l with
        | none => none
        | some ys => some (Json.arr (ys.filter truthy))) ∧
      (plookup es key = some (Json.arr [Json.obj ce]) →
        dissolve_single_item_lists es key = pupdate (perase es key) ce) ∧
      (seqMap (prepare_field f) l = some xs →
        dedupFirst (xs.filter truthy) = [Json.obj ce] →
        prepare_field f (Json.obj [("anyOf", Json.arr l)]) =
          some (Json.obj (pupdate [] ce))) := by
  intro f l es key ce xs
  refine ⟨prepare_field_arr f l, ?_, ?_⟩
  · intro h
    simp [dissolve_single_item_lists, h]
  · intro hseq hd
    have hpq : prepQ f l = some [Json.obj ce] := by
      unfold prepQ
      simp only [hseq, hd]
    have h := prepare_field_anyOf_eq f l [Json.obj ce] hpq
    have hdis : dissolve_single_item_lists [("anyOf", Json.arr [Json.obj ce])] "anyOf" =
        pupdate [] ce := by
      simp [dissolve_single_item_lists, plookup, perase]
    rw [hdis] at h
    exact h

/-- C5 witness: two identical alternatives deduplicate to one dict,
which is dissolved into the parent. -/
theorem prepare_field_list_collapse_witness :
    prepare_field "f" (Json.obj [("anyOf", Json.arr
        [Json.obj [("type", Json.str "string")], Json.obj [("type", Json.str "string")]])]) =
      some (Json.obj [("type", Json.str "string")]) := by
  have h := (prepare_field_list_collapse "f"
    [Json.obj [("type", Json.str "string")], Json.obj [("type", Json.str "string")]]
    [] "anyOf" [("type", Json.str "string")]
    [Json.obj [("type", Json.str "string")], Json.obj [("type", Json.str "string")]]).2.2
    (by decide) (by decide)
  have hp : pupdate ([] : Entries) [("type", Json.str "string")] =
      [("type", Json.str "string")] := by decide
  rw [hp] at h
  exact h

/-! ## C6: order sensitivity of the union pipeline -/

theorem seqMap_perm {f : Json → Option Json} :
    ∀ {l₁ l₂ : List Json}, l₁.Perm l₂ →
      ∀ {r₁ : List Json}, seqMap f l₁ = some r₁ →
        ∃ r₂, seqMap f l₂ = some r₂ ∧ r₁.Perm r₂ := by
  intro l₁ l₂ hperm
  induction hperm with
  | nil =>
    intro r₁ h
    refine ⟨r₁, h, ?_⟩
    simp [seqMap] at h
    subst h
    exact List.Perm.refl _
  | cons x hp ih =>
    rename_i t₁ t₂
    intro r₁ h
    simp only [seqMap] at h
    cases hx : f x with
    | none => rw [hx] at h; cases h
    | some y =>
      rw [hx] at h
      cases hs : seqMap f t₁ with
      | none => rw [hs] at h; cases h
      | some ys =>
        rw [hs] at h
        obtain rfl := Option.some.inj h
        obtain ⟨ys₂, hs₂, hp₂⟩ := ih hs
        exact ⟨y :: ys₂, by simp [seqMap, hx, hs₂], List.Perm.cons y hp₂⟩
  | swap a b t =>
    intro r₁ h
    simp only [seqMap] at h ⊢
    cases hb : f b with
    | none => rw [hb] at h; cases h
    | some yb =>
      rw [hb] at h
      cases ha : f a with
      | none => rw [ha] at h; cases h
      | some ya =>
        rw [ha] at h
        cases hs : seqMap f t with
        | none => rw [hs] at h; cases h
        | some ys =>
          rw [hs] at h
          obtain rfl := Option.some.inj h
          exact ⟨ya :: yb :: ys, by simp [ha, hb, hs], List.Perm.swap ya yb ys⟩
  | trans h₁ h₂ ih₁ ih₂ =>
    intro r₁ h
    obtain ⟨r₂, hr₂, hp₂⟩ := ih₁ h
    obtain ⟨r₃, hr₃, hp₃⟩ := ih₂ hr₂
    exact ⟨r₃, hr₃, hp₂.trans hp₃⟩

theorem dedupFirst_nodup : ∀ l : List Json, (dedupFirst l).Nodup := by
  intro l
  induction l with
  | nil => simp [dedupFirst]
  | cons x xs ih =>
    simp only [dedupFirst, List.nodup_cons]
    constructor
    · intro hmem
      have := List.of_mem_filter hmem
      simp at this
    · exact ih.filter _

theorem mem_dedupFirst : ∀ {a : Json} {l : List Json}, a ∈ dedupFirst l ↔ a ∈ l := by
  intro a l
  induction l with
  | nil => simp [dedupFirst]
  | cons x xs ih =>
    simp only [dedupFirst, List.mem_cons, List.mem_filter, ih]
    by_cases hax : a = x
    · simp [hax]
    · simp [hax]

theorem dedupFirst_perm {l₁ l₂ : List Json} (h : l₁.Perm l₂) :
    (dedupFirst l₁).Perm (dedupFirst l₂) :=
  (List.perm_ext_iff_of_nodup (dedupFirst_nodup _) (dedupFirst_nodup _)).mpr
    (fun a => by rw [mem_dedupFirst, mem_dedupFirst]; exact h.mem_iff)

/-- C6 counterexample: a union with two distinct alternatives keeps them
in their original order, so permuting the alternatives changes the final
normalized fragment (Python `==` compares lists order-sensitively). -/
theorem prepare_field_union_order_counterexample :
    prepare_field "x" (Json.obj [("anyOf", Json.arr
        [Json.obj [("type", Json.str "string")], Json.obj [("type", Json.str "integer")]])]) =
      some (Json.obj [("anyOf", Json.arr
        [Json.obj [("type", Json.str "string")], Json.obj [("type", Json.str "integer")]])]) ∧
    prepare_field "x" (Json.obj [("anyOf", Json.arr
        [Json.obj [("type", Json.str "integer")], Json.obj [("type", Json.str "string")]])]) =
      some (Json.obj [("anyOf", Json.arr
        [Json.obj [("type", Json.str "integer")], Json.obj [("type", Json.str "string")]])]) ∧
    ([Json.obj [("type", Json.str "string")], Json.obj [("type", Json.str "integer")]] :
        List Json).Perm
      [Json.obj [("type", Json.str "integer")], Json.obj [("type", Json.str "string")]] ∧
    peq (Json.obj [("anyOf", Json.arr
        [Json.obj [("type", Json.str "string")], Json.obj [("type", Json.str "integer")]])])
      (Json.obj [("anyOf", Json.arr
        [Json.obj [("type", Json.str "integer")], Json.obj [("type", Json.str "string")]])]) =
      false := by
  refine ⟨by decide, by decide, List.Perm.swap _ _ _, by decide⟩

/-- C6 amended: the deduplication pipeline is order-independent only up
to the order of the surviving alternatives: permuting the alternatives
yields a deduplicated list that is a permutation of the original one,
and the final fragments coincide when at most one distinct structured
alternative survives (the dissolution case); with two or more distinct
surviving alternatives the fragments differ exactly by that order. -/
theorem prepare_field_union_perm :
    ∀ (f : String) (l₁ l₂ : List Json), l₁.Perm l₂ →
      (∀ d₁, prepQ f l₁ = some d₁ → ∃ d₂, prepQ f l₂ = some d₂ ∧ d₁.Perm d₂) ∧
      (∀ ce : Entries, prepQ f l₁ = some [Json.obj ce] →
        prepare_field f (Json.obj [("anyOf", Json.arr l₁)]) =
          prepare_field f (Json.obj [("anyOf", Json.arr l₂)])) := by
  intro f l₁ l₂ hperm
  have hmain : ∀ d₁, prepQ f l₁ = some d₁ → ∃ d₂, prepQ f l₂ = some d₂ ∧ d₁.Perm d₂ := by
    intro d₁ h
    unfold prepQ at h ⊢
    cases hs : seqMap (prepare_field f) l₁ with
    | none => rw [hs] at h; cases h
    | some xs =>
      rw [hs] at h
      obtain rfl := Option.some.inj h
      obtain ⟨xs₂, hs₂, hp₂⟩ := seqMap_perm hperm hs
      refine ⟨dedupFirst (xs₂.filter truthy), by rw [hs₂], ?_⟩
      exact dedupFirst_perm (hp₂.filter _)
  refine ⟨hmain, ?_⟩
  intro ce h₁
  obtain ⟨d₂, h₂, hp₂⟩ := hmain [Json.obj ce] h₁
  have : d₂ = [Json.obj ce] := (List.singleton_perm.mp hp₂).symm
  subst this
  rw [prepare_field_anyOf_eq f l₁ [Json.obj ce] h₁,
    prepare_field_anyOf_eq f l₂ [Json.obj ce] h₂]

/-- C6 witness: swapping two alternatives yields a permuted deduplicated
list at a concrete input. -/
theorem prepare_field_union_perm_witness :
    ∃ d₂, prepQ "x" [Json.obj [("type", Json.str "integer")],
        Json.obj [("type", Json.str "string")]] = some d₂ ∧
      ([Json.obj [("type", Json.str "string")], Json.obj [("type", Json.str "integer")]] :
        List Json).Perm d₂ :=
  (prepare_field_union_perm "x"
    [Json.obj [("type", Json.str "string")], Json.obj [("type", Json.str "integer")]]
    [Json.obj [("type", Json.str "integer")], Json.obj [("type", Json.str "string")]]
    (List.Perm.swap _ _ _)).1
    [Json.obj [("type", Json.str "string")], Json.obj [("type", Json.str "integer")]]
    (by decide)

/-! ## C2: idempotence -/

theorem list_all_congr {α : Type} {f g : α → Bool} :
    ∀ {l : List α}, (∀ x ∈ l, f x = g x) → l.all f = l.all g := by
  intro l
  induction l with
  | nil => intro _; rfl
  | cons x xs ih =>
    intro h
    simp only [List.all_cons, h x (List.mem_cons_self _ _),
      ih (fun y hy => h y (List.mem_cons_of_mem _ hy))]

theorem noQuantF_irrel :
    ∀ n m j, jsize j < n → jsize j < m → noQuantF n j = noQuantF m j := by
  intro n
  induction n with
  | zero => intro m j h _; exact absurd h (by omega)
  | succ n ih =>
    intro m j hn hm
    have h1 := jsize_pos j
    obtain ⟨m', rfl⟩ : ∃ m', m = m' + 1 := ⟨m - 1, by omega⟩
    cases j with
    | null => rfl
    | bool b => rfl
    | num k => rfl
    | str s => rfl
    | arr l =>
      simp only [noQuantF]
      refine list_all_congr (fun x hx => ?_)
      have := jsizeL_mem hx
      simp [jsize] at hn hm
      exact ih m' x (by omega) (by omega)
    | obj es =>
      simp only [noQuantF]
      have : es.all (fun e => noQuantF n e.2) = es.all (fun e => noQuantF m' e.2) := by
        refine list_all_congr (fun e he => ?_)
        have := jsizeE_mem he
        simp [jsize] at hn hm
        exact ih m' e.2 (by omega) (by omega)
      rw [this]

theorem noCRefF_irrel :
    ∀ n m j, jsize j < n → jsize j < m → noCRefF n j = noCRefF m j := by
  intro n
  induction n with
  | zero => intro m j h _; exact absurd h (by omega)
  | succ n ih =>
    intro m j hn hm
    have h1 := jsize_pos j
    obtain ⟨m', rfl⟩ : ∃ m', m = m' + 1 := ⟨m - 1, by omega⟩
    cases j with
    | null => rfl
    | bool b => rfl
    | num k => rfl
    | str s => rfl
    | arr l =>
      simp only [noCRefF]
      refine list_all_congr (fun x hx => ?_)
      have := jsizeL_mem hx
      simp [jsize] at hn hm
      exact ih m' x (by omega) (by omega)
    | obj es =>
      simp only [noCRefF]
      have : es.all (fun e => noCRefF n e.2) = es.all (fun e => noCRefF m' e.2) := by
        refine list_all_congr (fun e he => ?_)
        have := jsizeE_mem he
        simp [jsize] at hn hm
        exact ih m' e.2 (by omega) (by omega)
      rw [this]

theorem noQuant_arr {l : List Json} (h : noQuant (Json.arr l) = true) :
    ∀ x ∈ l, noQuant x = true := by
  intro x hx
  unfold noQuant at h ⊢
  simp only [noQuantF, List.all_eq_true] at h
  have := h x hx
  rw [← noQuantF_irrel (jsize (Json.arr l)) (jsize x + 1) x
    (by have := jsizeL_mem hx; simp [jsize]; omega) (by omega)]
  exact this

theorem noQuant_obj {es : Entries} (h : noQuant (Json.obj es) = true) :
    plookup es "anyOf" = none ∧ plookup es "allOf" = none ∧
    ∀ k v, plookup es k = some v → noQuant v = true := by
  unfold noQuant at h
  simp only [noQuantF, Bool.and_eq_true, List.all_eq_true, Option.isNone_iff_eq_none] at h
  obtain ⟨⟨hany, hall⟩, hvals⟩ := h
  refine ⟨hany, hall, fun k v hkv => ?_⟩
  have hmem := plookup_mem hkv
  have := hvals (k, v) hmem
  unfold noQuant
  rw [← noQuantF_irrel (jsize (Json.obj es)) (jsize v + 1) v
    (by have := jsizeE_mem hmem; simp [jsize] at this ⊢; omega) (by omega)]
  exact this

theorem noCRef_arr {l : List Json} (h : noCRef (Json.arr l) = true) :
    ∀ x ∈ l, noCRef x = true := by
  intro x hx
  unfold noCRef at h ⊢
  simp only [noCRefF, List.all_eq_true] at h
  have := h x hx
  rw [← noCRefF_irrel (jsize (Json.arr l)) (jsize x + 1) x
    (by have := jsizeL_mem hx; simp [jsize]; omega) (by omega)]
  exact this

theorem noCRef_obj {es : Entries} (h : noCRef (Json.obj es) = true) :
    plookup es "$ref" ≠ some (Json.str "/schema/entities/concept#/identifier") ∧
    ∀ k v, plookup es k = some v → noCRef v = true := by
  unfold noCRef at h
  simp only [noCRefF, Bool.and_eq_true, List.all_eq_true, bne_iff_ne, ne_eq] at h
  obtain ⟨href, hvals⟩ := h
  refine ⟨href, fun k v hkv => ?_⟩
  have hmem := plookup_mem hkv
  have := hvals (k, v) hmem
  unfold noCRef
  rw [← noCRefF_irrel (jsize (Json.obj es)) (jsize v + 1) v
    (by have := jsizeE_mem hmem; simp [jsize] at this ⊢; omega) (by omega)]
  exact this

theorem seqMap_mem_ex {f : Json → Option Json} :
    ∀ {l xs : List Json}, seqMap f l = some xs → ∀ y ∈ xs, ∃ x ∈ l, f x = some y := by
  intro l
  induction l with
  | nil =>
    intro xs h y hy
    simp [seqMap] at h
    subst h
    cases hy
  | cons x t ih =>
    intro xs h y hy
    simp only [seqMap] at h
    cases hx : f x with
    | none => rw [hx] at h; cases h
    | some z =>
      rw [hx] at h
      cases hs : seqMap f t with
      | none => rw [hs] at h; cases h
      | some zs =>
        rw [hs] at h
        obtain rfl := Option.some.inj h
        rcases List.mem_cons.mp hy with rfl | hy2
        · exact ⟨x, List.mem_cons_self _ _, hx⟩
        · obtain ⟨x', hx', hfx'⟩ := ih hs y hy2
          exact ⟨x', List.mem_cons_of_mem _ hx', hfx'⟩

theorem seqMap_id_of {f : Json → Option Json} :
    ∀ {l : List Json}, (∀ y ∈ l, f y = some y) → seqMap f l = some l := by
  intro l
  induction l with
  | nil => intro _; rfl
  | cons x t ih =>
    intro h
    simp [seqMap, h x (List.mem_cons_self _ _),
      ih (fun y hy => h y (List.mem_cons_of_mem _ hy))]

/-- An entries list already in the normal form that `pureSteps`
establishes is a fixed point of `pureSteps`. -/
theorem pureSteps_stable (f : String) (m : Entries)
    (hpops : plookup m "sameAs" = none ∧ plookup m "subPropertyOf" = none ∧
      plookup m "description" = none ∧ plookup m "title" = none ∧
      plookup m "useScheme" = none)
    (hpat : plookup m "pattern" ≠ some (Json.str MEX_ID_PATTERN))
    (hdate : dateGuard m = true →
      plookup m "format" = some (Json.str "date-time") ∧
      plookup m "pattern" = none ∧ plookup m "examples" = none)
    (href : ∀ v, plookup m "$ref" = some v → ∃ s, v = Json.str (kebabRef s))
    (hcref : plookup m "$ref" ≠ some (Json.str "/schema/entities/concept#/identifier")) :
    pureSteps f m = some m := by
  obtain ⟨h1, h2, h3, h4, h5⟩ := hpops
  have hdrop : dropStep m = m := by
    unfold dropStep
    rw [perase_of_not_mem h1, perase_of_not_mem h2, perase_of_not_mem h3]
  have hds : dateStep m = m := by
    by_cases hdg : dateGuard m = true
    · obtain ⟨hf, hp, he⟩ := hdate hdg
      unfold dateStep
      rw [if_pos hdg, perase_of_not_mem he, perase_of_not_mem hp, pinsert_self hf]
    · exact dateStep_unfired (by simpa using hdg)
  have hmex : mexStep f none m = some m :=
    mexStep_not_fired (beq_eq_false_iff_ne.mpr hpat)
  have hcs : ∀ vocab, conceptStep vocab m = m := by
    intro vocab
    unfold conceptStep
    rw [if_neg]
    simp only [beq_iff_eq]
    exact hcref
  have hkb : kebabStep m = some m := by
    cases hr : plookup m "$ref" with
    | none => unfold kebabStep; rw [hr]
    | some v =>
      obtain ⟨s, rfl⟩ := href v hr
      unfold kebabStep
      rw [hr]
      simp only [kebabRef_idem, pinsert_self hr]
  simp only [pureSteps, hdrop, perase_of_not_mem h4, perase_of_not_mem h5, h4, h5]
  rw [hds, hmex]
  simp only [hcs, hkb]

theorem prep_idem_aux :
    ∀ (n : Nat) (f : String) (x : Json) (r : Json),
      jsize x < n →
      noQuant x = true →
      prepare_field f x = some r →
      noCRef r = true →
      prepare_field f r = some r := by
  intro n
  induction n with
  | zero => intro f x r h _ _ _; exact absurd h (by omega)
  | succ n ih =>
    intro f x r hn hq hsucc hcr
    cases x with
    | null =>
      exact Option.noConfusion ((rfl : prepare_field f Json.null = none).symm.trans hsucc)
    | bool b =>
      exact Option.noConfusion
        ((rfl : prepare_field f (Json.bool b) = none).symm.trans hsucc)
    | num k =>
      exact Option.noConfusion
        ((rfl : prepare_field f (Json.num k) = none).symm.trans hsucc)
    | str s =>
      exact Option.noConfusion
        ((rfl : prepare_field f (Json.str s) = none).symm.trans hsucc)
    | arr l =>
      rw [prepare_field_arr] at hsucc
      cases hs : seqMap (prepare_field f) l with
      | none => simp only [hs] at hsucc; cases hsucc
      | some xs =>
        simp only [hs] at hsucc
        obtain rfl := Option.some.inj hsucc
        have hfix : ∀ y ∈ xs.filter truthy, prepare_field f y = some y := by
          intro y hy
          have hyx : y ∈ xs := List.mem_of_mem_filter hy
          obtain ⟨x', hx', hfx'⟩ := seqMap_mem_ex hs y hyx
          have hszx' := jsizeL_mem hx'
          refine ih f x' y ?_ (noQuant_arr hq x' hx') hfx' ?_
          · simp [jsize] at hn; omega
          · exact noCRef_arr hcr y hy
        rw [prepare_field_arr, seqMap_id_of hfix]
        have hff : List.filter truthy (List.filter truthy xs) = List.filter truthy xs :=
          List.filter_eq_self.mpr (fun a ha => List.of_mem_filter ha)
        simp only [hff]
    | obj es =>
      obtain ⟨hany, hall, hvals⟩ := noQuant_obj hq
      rw [prepare_field_obj] at hsucc
      cases hps : pureSteps f es with
      | none => simp only [hps] at hsucc; cases hsucc
      | some m0 =>
        simp only [hps] at hsucc
        have hq1 : ∀ cur, quantStep (prepare_field f) es cur "anyOf" = some cur :=
          fun cur => by simp [quantStep, hany]
        have hq2 : ∀ cur, quantStep (prepare_field f) es cur "allOf" = some cur :=
          fun cur => by simp [quantStep, hall]
        have hpops := pureSteps_pops_none hps
        have hpat := pureSteps_pattern_not_mex hps
        have hdate := pureSteps_dateGuard hps
        have href := pureSteps_ref_kebab hps
        have hanym : plookup m0 "anyOf" = none := by
          rw [pureSteps_lookup_other hps (by decide) (by decide) (by decide) (by decide)
            (by decide) (by decide) (by decide) (by decide) (by decide) (by decide)]
          exact hany
        have hallm : plookup m0 "allOf" = none := by
          rw [pureSteps_lookup_other hps (by decide) (by decide) (by decide) (by decide)
            (by decide) (by decide) (by decide) (by decide) (by decide) (by decide)]
          exact hall
        by_cases ht : (plookup m0 "type" == some (Json.str "array")) = true
        · cases hit : plookup es "items" with
          | none => simp only [if_pos ht, hit] at hsucc; cases hsucc
          | some itv =>
            simp only [if_pos ht, hit] at hsucc
            cases hpi : prepare_field f itv with
            | none => simp only [hpi] at hsucc; cases hsucc
            | some itv' =>
              simp only [hpi, hq1, hq2] at hsucc
              obtain rfl := Option.some.inj hsucc
              obtain ⟨hcref_top, hcvals⟩ := noCRef_obj hcr
              have t : ∀ k, "items" ≠ k →
                  plookup (pinsert m0 "items" itv') k = plookup m0 k :=
                fun k hk => plookup_pinsert_other _ hk _
              have hdg_eq : dateGuard (pinsert m0 "items" itv') = dateGuard m0 := by
                unfold dateGuard
                rw [t "format" (by decide), t "pattern" (by decide)]
              have hstable := pureSteps_stable f (pinsert m0 "items" itv')
                ⟨by rw [t "sameAs" (by decide)]; exact hpops.1,
                 by rw [t "subPropertyOf" (by decide)]; exact hpops.2.1,
                 by rw [t "description" (by decide)]; exact hpops.2.2.1,
                 by rw [t "title" (by decide)]; exact hpops.2.2.2.1,
                 by rw [t "useScheme" (by decide)]; exact hpops.2.2.2.2⟩
                (by rw [t "pattern" (by decide)]; exact hpat)
                (by
                  rw [hdg_eq, t "format" (by decide), t "pattern" (by decide),
                    t "examples" (by decide)]
                  exact hdate)
                (by rw [t "$ref" (by decide)]; exact href)
                hcref_top
              rw [prepare_field_obj, hstable]
              have ht2 : (plookup (pinsert m0 "items" itv') "type" ==
                  some (Json.str "array")) = true := by
                rw [t "type" (by decide)]; exact ht
              have hit2 : plookup (pinsert m0 "items" itv') "items" = some itv' :=
                plookup_pinsert_self _ _ _
              simp only [if_pos ht2, hit2]
              have hfi : prepare_field f itv' = some itv' := by
                refine ih f itv itv' ?_ (hvals "items" itv hit) hpi ?_
                · have := plookup_size hit
                  simp [jsize] at hn
                  omega
                · exact hcvals "items" itv' hit2
              simp only [hfi, pinsert_self hit2]
              have hq1' : ∀ cur, quantStep (prepare_field f) (pinsert m0 "items" itv')
                  cur "anyOf" = some cur := fun cur => by
                simp only [quantStep, t "anyOf" (by decide), hanym]
              have hq2' : ∀ cur, quantStep (prepare_field f) (pinsert m0 "items" itv')
                  cur "allOf" = some cur := fun cur => by
                simp only [quantStep, t "allOf" (by decide), hallm]
              simp only [hq1', hq2']
        · simp only [if_neg ht, hq1, hq2] at hsucc
          obtain rfl := Option.some.inj hsucc
          obtain ⟨hcref_top, _⟩ := noCRef_obj hcr
          have hstable := pureSteps_stable f m0 hpops hpat hdate href hcref_top
          rw [prepare_field_obj, hstable]
          simp only [if_neg ht]
          have hq1' : ∀ cur, quantStep (prepare_field f) m0 cur "anyOf" = some cur :=
            fun cur => by simp [quantStep, hanym]
          have hq2' : ∀ cur, quantStep (prepare_field f) m0 cur "allOf" = some cur :=
            fun cur => by simp [quantStep, hallm]
          simp only [hq1', hq2']

/-- C2 counterexample: normalization is not idempotent.  Dissolving the
single `anyOf` alternative `{"format": "date"}` splices a
`format: date-time` key into a parent that still carries `examples`;
the second application then fires the date rule and pops `examples`, so
applying `prepare_field` twice differs from applying it once (both in
strict structural equality and under Python `==`). -/
theorem prepare_field_not_idempotent :
    prepare_field "x" (Json.obj [("examples", Json.arr [Json.str "e"]),
        ("anyOf", Json.arr [Json.obj [("format", Json.str "date")]])]) =
      some (Json.obj [("examples", Json.arr [Json.str "e"]),
        ("format", Json.str "date-time")]) ∧
    prepare_field "x" (Json.obj [("examples", Json.arr [Json.str "e"]),
        ("format", Json.str "date-time")]) =
      some (Json.obj [("format", Json.str "date-time")]) ∧
    Json.obj [("examples", Json.arr [Json.str "e"]), ("format", Json.str "date-time")] ≠
      Json.obj [("format", Json.str "date-time")] ∧
    peq (Json.obj [("format", Json.str "date-time")])
      (Json.obj [("examples", Json.arr [Json.str "e"]),
        ("format", Json.str "date-time")]) = false := by
  refine ⟨by decide, by decide, by decide, by decide⟩

/-- C2 amended: normalization is idempotent on fragments free of
`anyOf`/`allOf` containers whose normalized form contains no generic
concept-identifier reference: applying `prepare_field` to such an output
returns it unchanged. -/
theorem prepare_field_idempotent :
    ∀ (f : String) (x r : Json),
      noQuant x = true →
      prepare_field f x = some r →
      noCRef r = true →
      prepare_field f r = some r :=
  fun f x r hq hs hc => prep_idem_aux (jsize x + 1) f x r (by omega) hq hs hc

/-- C2 witness: normalizing a date fragment once reaches a fixed point. -/
theorem prepare_field_idempotent_witness :
    prepare_field "f" (Json.obj [("format", Json.str "date-time")]) =
      some (Json.obj [("format", Json.str "date-time")]) :=
  prepare_field_idempotent "f" (Json.obj [("format", Json.str "date")])
    (Json.obj [("format", Json.str "date-time")])
    (by decide) (by decide) (by decide)

/-! ## C10: DataValue.transform_strings_to_dict -/

/-- C10: the pre-parse transform of a wikidata claim's DataValue wraps a
`None` or string raw `value` as `{"value": {"language": None, "text":
value}}` and returns any input whose `value` is already a mapping
unchanged. -/
theorem transform_strings_to_dict_spec :
    ∀ (vs : Entries) (s : String) (ws : Entries),
      (plookup vs "value" = some Json.null →
        transform_strings_to_dict vs =
          [("value", Json.obj [("language", Json.null), ("text", Json.null)])]) ∧
      (plookup vs "value" = some (Json.str s) →
        transform_strings_to_dict vs =
          [("value", Json.obj [("language", Json.null), ("text", Json.str s)])]) ∧
      (plookup vs "value" = some (Json.obj ws) →
        transform_strings_to_dict vs = vs) := by
  intro vs s ws
  refine ⟨?_, ?_, ?_⟩ <;> intro h <;> simp [transform_strings_to_dict, h]

/-- C10 witness: the three behaviours at concrete inputs. -/
theorem transform_strings_to_dict_spec_witness :
    transform_strings_to_dict [("id", Json.str "Q679041"), ("value", Json.str "RKI")] =
      [("value", Json.obj [("language", Json.null), ("text", Json.str "RKI")])] ∧
    transform_strings_to_dict [("value", Json.null)] =
      [("value", Json.obj [("language", Json.null), ("text", Json.null)])] ∧
    transform_strings_to_dict
        [("value", Json.obj [("language", Json.str "en"), ("text", Json.str "RKI")])] =
      [("value", Json.obj [("language", Json.str "en"), ("text", Json.str "RKI")])] :=
  ⟨(transform_strings_to_dict_spec _ "RKI" []).2.1 (by decide),
   (transform_strings_to_dict_spec _ "" []).1 (by decide),
   (transform_strings_to_dict_spec _ ""
      [("language", Json.str "en"), ("text", Json.str "RKI")]).2.2 (by decide)⟩

/-! ## C9: BaseSettings.get -/

/-- C9: `BaseSettings.get` is a lazy per-context singleton: on an empty
context it constructs, stores and returns a fresh instance of the
requested class, and a second call returns that very instance; on a
non-empty context it raises RuntimeError exactly when the stored
instance is not an instance of the requested class, and the stored
instance is never replaced. -/
theorem settings_get_spec :
    ∀ (c : SettingsCls) (s : SettingsInstance),
      settings_get c none = (Except.ok (parse_obj c), some (parse_obj c)) ∧
      settings_get c (some (parse_obj c)) = (Except.ok (parse_obj c), some (parse_obj c)) ∧
      ((settings_get c (some s)).1 = Except.error "RuntimeError" ↔ isinstance s c = false) ∧
      ((settings_get c (some s)).1 = Except.ok s ↔ isinstance s c = true) ∧
      (settings_get c (some s)).2 = some s := by
  intro c s
  refine ⟨?_, ?_, ?_, ?_, ?_⟩
  · simp [settings_get, isinstance, isSubclass, parse_obj]
  · simp [settings_get, isinstance, isSubclass, parse_obj]
  · by_cases h : isinstance s c <;> simp [settings_get, h]
  · by_cases h : isinstance s c <;> simp [settings_get, h]
  · by_cases h : isinstance s c <;> simp [settings_get, h]

/-- C9 witness: a subclass request against a sibling instance raises and
leaves the context unchanged; an empty context constructs and stores; a
base-class request accepts a subclass instance. -/
theorem settings_get_spec_witness :
    (settings_get SettingsCls.subA (some ⟨SettingsCls.subB⟩)).1 =
        Except.error "RuntimeError" ∧
    settings_get SettingsCls.subA none =
        (Except.ok ⟨SettingsCls.subA⟩, some ⟨SettingsCls.subA⟩) ∧
    (settings_get SettingsCls.baseSettings (some ⟨SettingsCls.subA⟩)).1 =
        Except.ok ⟨SettingsCls.subA⟩ ∧
    (settings_get SettingsCls.subA (some ⟨SettingsCls.subB⟩)).2 =
        some ⟨SettingsCls.subB⟩ :=
  ⟨(settings_get_spec SettingsCls.subA ⟨SettingsCls.subB⟩).2.2.1.mpr (by decide),
   (settings_get_spec SettingsCls.subA ⟨SettingsCls.subA⟩).1,
   (settings_get_spec SettingsCls.baseSettings ⟨SettingsCls.subA⟩).2.2.2.1.mpr (by decide),
   (settings_get_spec SettingsCls.subA ⟨SettingsCls.subB⟩).2.2.2.2⟩

/-! ## C8: the discriminant check -/

theorem peq_str_iff (j : Json) (s : String) : peq j (Json.str s) = true ↔ j = Json.str s := by
  cases j <;> simp [peq]

/-- C8: for documents whose discriminant `const` is a fixed string, the
comparator's discriminant check passes iff that constant equals the
generated document's title (the generated entity name) and the
specified title with spaces removed is a substring of it. -/
theorem test_entity_type_matches_class_name_spec :
    ∀ (generated specified : Json) (cs : String),
      constPath generated = some (Json.str cs) →
      (test_entity_type_matches_class_name generated specified = true ↔
        (getPath generated "title" = some (Json.str cs) ∧
         ∃ st : String, getPath specified "title" = some (Json.str st) ∧
           isSubstr (despace st) cs = true)) := by
  intro generated specified cs hc
  cases hgt : getPath generated "title" with
  | none => simp [test_entity_type_matches_class_name, hgt, hc]
  | some gt =>
    cases hst : getPath specified "title" with
    | none => simp [test_entity_type_matches_class_name, hgt, hc, hst]
    | some st =>
      cases st with
      | str stv =>
        simp only [test_entity_type_matches_class_name, hgt, hc, hst, pyIn,
          Bool.and_eq_true, peq_str_iff]
        constructor
        · rintro ⟨rfl, hb⟩
          exact ⟨rfl, stv, rfl, hb⟩
        · rintro ⟨hgt2, st2, hst2, hb⟩
          injection hgt2 with h1
          injection hst2 with h2
          injection h2 with h3
          subst h3
          exact ⟨h1, hb⟩
      | null => simp [test_entity_type_matches_class_name, hgt, hc, hst]
      | bool b => simp [test_entity_type_matches_class_name, hgt, hc, hst]
      | num n => simp [test_entity_type_matches_class_name, hgt, hc, hst]
      | arr l => simp [test_entity_type_matches_class_name, hgt, hc, hst]
      | obj es => simp [test_entity_type_matches_class_name, hgt, hc, hst]

/-- C8 witness: a generated Person document against its specified
document with a spaced display title. -/
theorem test_entity_type_matches_class_name_spec_witness :
    test_entity_type_matches_class_name
      (Json.obj [("title", Json.str "ExtractedPerson"),
                 ("properties", Json.obj [("$type",
                    Json.obj [("const", Json.str "ExtractedPerson")])])])
      (Json.obj [("title", Json.str "Extracted Person")]) = true :=
  (test_entity_type_matches_class_name_spec _ _ "ExtractedPerson" (by decide)).mpr
    ⟨by decide, "Extracted Person", by decide, by decide⟩

/-! ## C7: the schema loader -/

/-- Loading fails on a list of parsed specification files iff one of
them is bad in the sense of `specFileBad`. -/
theorem loadFails_eq_any : ∀ files : List (Option Json),
    loadFails files = files.any specFileBad := by
  intro files
  induction files with
  | nil => simp [loadFails, loadSpecifiedSchemas]
  | cons f rest ih =>
    cases f with
    | none => simp [loadFails, loadSpecifiedSchemas, specFileBad]
    | some j =>
      by_cases ht : truthy j
      · cases htt : titleOf j with
        | none =>
          simp only [loadFails, loadSpecifiedSchemas, ht, htt, if_true, List.any_cons]
          simp [specFileBad, ht, htt]
        | some t =>
          have hbadf : specFileBad (some j) = false := by
            simp [specFileBad, ht, htt]
          by_cases hc : startsWithS "Concept" t
          · simp only [loadFails, loadSpecifiedSchemas, ht, htt, hc, if_true,
              List.any_cons, hbadf, Bool.false_or]
            exact ih
          · simp only [loadFails, loadSpecifiedSchemas, ht, htt, hc, if_true, if_false,
              List.any_cons, hbadf, Bool.false_or]
            rw [← ih]
            cases hrec : loadSpecifiedSchemas rest with
            | error e => simp [loadFails, hrec]
            | ok out => simp [loadFails, hrec]
      · simp only [loadFails, loadSpecifiedSchemas, ht, if_false, List.any_cons]
        have hbadf : specFileBad (some j) = false := by
          simp [specFileBad, ht]
        rw [hbadf]
        simpa [loadFails] using ih

/-- C7 amended: building the specified schema set aborts with a load
error iff some specification file is malformed JSON or is a truthy
document without a string title; loading never fails on falsy documents
even when they lack a title. -/
theorem SPECIFIED_SCHEMAS_fails_iff :
    ∀ files : List (Option Json),
      (∃ e, SPECIFIED_SCHEMAS_from files = Except.error e) ↔ files.any specFileBad = true := by
  intro files
  rw [← loadFails_eq_any]
  unfold SPECIFIED_SCHEMAS_from loadFails
  cases h : loadSpecifiedSchemas files with
  | error e => simp
  | ok out => simp

/-- C7 witness: a malformed file aborts the load. -/
theorem SPECIFIED_SCHEMAS_fails_iff_witness :
    ∃ e, SPECIFIED_SCHEMAS_from [none] = Except.error e :=
  (SPECIFIED_SCHEMAS_fails_iff [none]).mpr (by decide)

/-- C7 counterexample: a specification file whose document is the falsy
`{}` lacks a `title` key, yet the load succeeds (the walrus-truthiness
test skips the document before its title is read), contradicting the
claim that a missing title always yields a LoadError. -/
theorem SPECIFIED_SCHEMAS_missing_title_no_error :
    getPath (Json.obj []) "title" = none ∧
    SPECIFIED_SCHEMAS_from [some (Json.obj [])] = Except.ok [] := by
  constructor
  · decide
  · rfl

end Mex
